import Mathlib

/-!
Verification of the `ll` structured-task observability library
(crate root `src/ll/src`), against its natural-language specification.

The Rust source is shallowly embedded:

* `u64` task ids are `Nat` (`UniqID::new` is a monotone counter, modelled
  by the `next_id` field of the tree state);
* `SystemTime` instants are `Nat` milliseconds; every public operation
  that reads the clock takes the current instant as an explicit `now`
  argument;
* `BTreeMap<UniqID, _>` fields of the tree are `Nat → Option _`
  functions, except where the source iterates over the whole map, in
  which case an association list is used;
* `BTreeSet<UniqID>` children sets and the root set are `List Nat`
  (ids are inserted in increasing order in the source, so insertion
  order and key order coincide);
* `BTreeMap<String, DataEntry>` data stores are association lists with
  set-like (membership) semantics; `BTreeSet<String>` tag sets are
  `List String`;
* fallible walks (`mark_for_gc`'s hold loop, the trace / status-frame
  DFS) are fuel-based; `none` / `.error` results model divergence or a
  propagated `anyhow` error;
* `i64` values are `Int`, with Rust's truncating division `Int.tdiv`;
* reporter callbacks are modelled by the `delivered` event stream: the
  event pump invokes every registered reporter with the same task
  snapshots in the same order, so one stream is the view of each
  reporter.
-/

namespace LL

/-! ## Tag parser (`src/ll/src/utils.rs::extract_tags`)

Strings are modelled as `List Char` here so that the splitting and
trimming structure is visible to proofs; `extract_tags_str` packs the
result back into `String` for the task-tree model. -/

/-- `char::is_whitespace` as used by `str::trim`; the inputs of interest
only ever contain ASCII whitespace. -/
def isWs (c : Char) : Bool := c.isWhitespace

/-- `str::split('#')`: fragments between occurrences of `'#'`. -/
def splitOnHash : List Char → List (List Char)
  | [] => [[]]
  | c :: cs =>
    if c = '#' then [] :: splitOnHash cs
    else
      match splitOnHash cs with
      | [] => [[c]]
      | f :: rest => (c :: f) :: rest

/-- `str::trim_start`. -/
def trimL (l : List Char) : List Char := l.dropWhile isWs

/-- `str::trim_end`. -/
def trimR (l : List Char) : List Char := (l.reverse.dropWhile isWs).reverse

/-- `str::trim`. -/
def trim (l : List Char) : List Char := trimL (trimR l)

/-- `utils::extract_tags`: split the name on `'#'`, trim every fragment,
drop the empty ones; with fewer than two surviving fragments the input
is returned unchanged, otherwise the first fragment is the clean name
and the rest form the tag set (a `BTreeSet`, modelled with membership
semantics). -/
def extract_tags (string_with_tags : List Char) :
    List Char × List (List Char) :=
  let key_and_tags := ((splitOnHash string_with_tags).map trim).filter
    (fun s => !s.isEmpty)
  if key_and_tags.length < 2 then (string_with_tags, [])
  else
    match key_and_tags with
    | [] => (string_with_tags, [])
    | key :: rest =>
      if rest.isEmpty then (key, []) else (key, rest)

/-- `extract_tags` on `String`s, for the task-tree model. -/
def extract_tags_str (s : String) : String × List String :=
  let r := extract_tags s.toList
  (r.1.asString, r.2.map List.asString)

/-! ## Levels (`src/src/level.rs`, `src/ll/src/utils.rs`)

`src/ll/src/lib.rs` declares `pub mod level;` but the file itself is not
in the sources; the sibling revision `src/src/level.rs` defines it, and
the snapshot test inside `src/ll/src/utils.rs` pins the same variants
and ordering (`Info < Debug < Trace`, minimum taken across tags). -/

inductive Level
  | Info
  | Debug
  | Trace
deriving DecidableEq, Repr

/-- The discriminants `Info = 1, Debug = 2, Trace = 3`. -/
def Level.toNat : Level → Nat
  | .Info => 1
  | .Debug => 2
  | .Trace => 3

instance : LE Level := ⟨fun a b => a.toNat ≤ b.toNat⟩
instance : LT Level := ⟨fun a b => a.toNat < b.toNat⟩

instance (a b : Level) : Decidable (a ≤ b) :=
  inferInstanceAs (Decidable (a.toNat ≤ b.toNat))
instance (a b : Level) : Decidable (a < b) :=
  inferInstanceAs (Decidable (a.toNat < b.toNat))

/-- `std::cmp::min` on `Level` (derives from the `Ord` ordering of the
declaration order of the variants). -/
def Level.min (a b : Level) : Level := if a ≤ b then a else b

/-- `utils::extract_log_level_from_tags`: scan the tags, map the
recognized names to levels, and keep the lowest one found, if any. -/
def extract_log_level_from_tags (tags : List String) : Option Level :=
  tags.foldl
    (fun result_level tag =>
      let found_level : Option Level :=
        match tag with
        | "info" => some .Info
        | "trace" => some .Trace
        | "debug" => some .Debug
        | _ => none
      match found_level, result_level with
      | some f, some inner => some (Level.min f inner)
      | some f, none => some f
      | none, r => r)
    none

/-! ## Data store (`src/ll/src/data.rs`) -/

/-- `DataValue`: tagged union of the value payloads. -/
inductive DataValue
  | string (s : String)
  | int (i : Int)
  | float (f : Float)
  | none

/-- `DataEntry(value, tags)`. -/
structure DataEntry where
  value : DataValue
  tags : List String

/-- `Data`: ordered key to entry mapping, modelled as an association
list with unique keys (a `BTreeMap`; no claim depends on key order). -/
structure Data where
  map : List (String × DataEntry)

def Data.empty : Data := ⟨[]⟩

/-- `BTreeMap::insert`: replace in place if the key exists, else add. -/
def insertKV (m : List (String × DataEntry)) (k : String) (v : DataEntry) :
    List (String × DataEntry) :=
  if m.any (fun e => e.1 = k) then
    m.map (fun e => if e.1 = k then (k, v) else e)
  else m ++ [(k, v)]

/-- `Data::add`: tag-parse the key, store the value under the clean key
with the extracted tags. -/
def Data.add (d : Data) (key : String) (value : DataValue) : Data :=
  let kt := extract_tags_str key
  ⟨insertKV d.map kt.1 ⟨value, kt.2⟩⟩

/-- `Data::merge`: insert every entry of `other`. -/
def Data.merge (d other : Data) : Data :=
  ⟨other.map.foldl (fun acc e => insertKV acc e.1 e.2) d.map⟩

/-- `Data::filter_for_level`: collect the keys whose tag-derived level
is strictly above the bound, then remove them. -/
def Data.filter_for_level (d : Data) (level : Level) : Data :=
  let to_remove :=
    (d.map.filter (fun e =>
      match extract_log_level_from_tags e.2.tags with
      | some entry_log_level => decide (level < entry_log_level)
      | Option.none => false)).map (fun e => e.1)
  ⟨d.map.filter (fun e => !to_remove.contains e.1)⟩

/-! ## Task state (`src/ll/src/task_tree.rs`) -/

inductive TaskResult
  | success
  | failure (msg : String)
deriving DecidableEq, Repr

inductive TaskStatus
  | running
  | finished (result : TaskResult) (finished_at : Nat)
deriving DecidableEq, Repr

def TaskStatus.isFinished : TaskStatus → Bool
  | .running => false
  | .finished _ _ => true

/-- `TaskInternal`: the per-task record stored in the tree. -/
structure TaskInternal where
  id : Nat
  name : String
  parent_names : List String
  started_at : Nat
  status : TaskStatus
  data : Data
  data_transitive : Data
  tags : List String
  progress : Option (Int × Int)
  hide_errors : Option String
  attach_transitive_data_to_errors : Bool
  keep_subtree_until_finished : Bool

/-- `TaskInternal::mark_done` (`task_tree.rs:582`): unconditionally
overwrite the status with a fresh `Finished`. -/
def TaskInternal.mark_done (t : TaskInternal) (error_message : Option String)
    (now : Nat) : TaskInternal :=
  let task_status := match error_message with
    | Option.none => TaskResult.success
    | some msg => TaskResult.failure msg
  { t with status := .finished task_status now }

/-- `TaskInternal::full_name` (`task_tree.rs:591`): join the ancestor
names and the task's own name with `':'`, then prepend the numeric id
and a dash via `format!("{}-{}", self.id, full_name)`. -/
def TaskInternal.full_name (t : TaskInternal) : String :=
  let fn := (t.parent_names.foldl (fun acc p => acc ++ p ++ ":") "") ++ t.name
  toString t.id ++ "-" ++ fn

/-! ## Tree state (`TaskTreeInternal`, `task_tree.rs:35`)

`delivered` is not a field of the Rust struct: it records, in order, the
`task_start` / `task_end` reporter callbacks issued by the event pump
(every registered reporter receives the same sequence). -/

/-- A reporter callback observation. -/
inductive Ev
  | started (id : Nat)
  | ended (id : Nat)
deriving DecidableEq, Repr

structure State where
  tasks : Nat → Option TaskInternal
  parent_to_children : Nat → Option (List Nat)
  child_to_parent : Nat → Option Nat
  root_tasks : List Nat
  report_start : List Nat
  report_end : List Nat
  /-- `tasks_marked_for_deletion`: id to the instant it was marked. -/
  marked : Nat → Option Nat
  data_transitive : Data
  remove_task_after_done_ms : Nat
  hide_errors_default_msg : Option String
  attach_transitive_data_to_errors_default : Bool
  /-- the `UniqID` counter: ids below it may have been allocated. -/
  next_id : Nat
  delivered : List Ev

/-- `TaskTree::new` with the given grace period (the source default is
`remove_task_after_done_ms = 0`). -/
def initState (ms : Nat) : State where
  tasks := fun _ => none
  parent_to_children := fun _ => none
  child_to_parent := fun _ => none
  root_tasks := []
  report_start := []
  report_end := []
  marked := fun _ => none
  data_transitive := Data.empty
  remove_task_after_done_ms := ms
  hide_errors_default_msg := none
  attach_transitive_data_to_errors_default := true
  next_id := 0
  delivered := []

/-- `TaskTree::create_task_internal` (`task_tree.rs:226`): allocate an
id, tag-parse the name, snapshot the transitive data (merging the
parent's when the parent id is found in the map), link the child into
the indices or the root set, insert the task and enqueue a `start`
event.  A parent id absent from `tasks` silently yields a root task. -/
def create_task_internal (s : State) (name : String) (parent : Option Nat)
    (now : Nat) : State × Nat :=
  let nt := extract_tags_str name
  let id := s.next_id
  let base : TaskInternal :=
    { status := .running
      name := nt.1
      parent_names := []
      id := id
      started_at := now
      data := Data.empty
      data_transitive := s.data_transitive
      tags := nt.2
      progress := none
      hide_errors := s.hide_errors_default_msg
      attach_transitive_data_to_errors :=
        s.attach_transitive_data_to_errors_default
      keep_subtree_until_finished := false }
  match parent.bind s.tasks with
  | some parent_task =>
    let task : TaskInternal :=
      { base with
        parent_names := parent_task.parent_names ++ [parent_task.name]
        data_transitive :=
          Data.merge s.data_transitive parent_task.data_transitive }
    let pid := parent_task.id
    ({ s with
        parent_to_children := fun p =>
          if p = pid then
            some (((s.parent_to_children pid).getD []) ++ [id])
          else s.parent_to_children p
        child_to_parent := fun c =>
          if c = id then some pid else s.child_to_parent c
        tasks := fun i => if i = id then some task else s.tasks i
        report_start := s.report_start ++ [id]
        next_id := id + 1 }, id)
  | none =>
    ({ s with
        root_tasks := s.root_tasks ++ [id]
        tasks := fun i => if i = id then some base else s.tasks i
        report_start := s.report_start ++ [id]
        next_id := id + 1 }, id)

/-- The ancestor hold walk at the top of `mark_for_gc`
(`task_tree.rs:470`): climb `child_to_parent` looking for a task with
`keep_subtree_until_finished` set and not yet finished.  When a task on
the chain is missing from the map the Rust loop never advances `parent`
and spins forever; that divergence (and fuel exhaustion) is `none`. -/
def holdWalk (s : State) : Nat → Option Nat → Option Bool
  | _, Option.none => some false
  | 0, some _ => none
  | fuel + 1, some next_parent =>
    match s.tasks next_parent with
    | Option.none => none
    | some task =>
      let should_hold := task.keep_subtree_until_finished
        && !task.status.isFinished
      if should_hold then some true
      else holdWalk s fuel (s.child_to_parent next_parent)

/-- `BTreeMap::insert` for the `tasks_to_finished_status` accumulator. -/
def insertNB (m : List (Nat × Bool)) (k : Nat) (v : Bool) :
    List (Nat × Bool) :=
  if m.any (fun e => e.1 = k) then
    m.map (fun e => if e.1 = k then (k, v) else e)
  else m ++ [(k, v)]

/-- The subtree DFS of `mark_for_gc` (`task_tree.rs:493`): pop ids off
the stack, record whether each present task is finished, push its
children.  The stack is LIFO, children are pushed in order. -/
def collectSubtree (s : State) :
    Nat → List Nat → List (Nat × Bool) → Option (List (Nat × Bool))
  | _, [], acc => some acc
  | 0, _ :: _, _ => none
  | fuel + 1, id :: stack, acc =>
    let acc' := match s.tasks id with
      | some task_internal =>
        insertNB acc id task_internal.status.isFinished
      | Option.none => acc
    collectSubtree s fuel
      (((s.parent_to_children id).getD []).reverse ++ stack) acc'

/-- `TaskTreeInternal::mark_for_gc` (`task_tree.rs:470`): bail out if a
running ancestor holds the subtree; otherwise collect the subtree, and
if every collected node is finished, record each id in
`tasks_marked_for_deletion` (keeping an existing instant) and recurse
into the parent. -/
def markForGc (s : State) (now : Nat) : Nat → Nat → Option State
  | 0, _ => none
  | fuel + 1, id =>
    match holdWalk s (fuel + 1) (some id) with
    | Option.none => none
    | some true => some s
    | some false =>
      match collectSubtree s (fuel + 1) [id] [] with
      | Option.none => none
      | some tasks_to_finished_status =>
        if tasks_to_finished_status.all (fun e => e.2) then
          let ids := tasks_to_finished_status.map (fun e => e.1)
          let s' : State :=
            { s with
              marked := fun i =>
                if ids.contains i then
                  match s.marked i with
                  | some t => some t
                  | Option.none => some now
                else s.marked i }
          match s.child_to_parent id with
          | some parent_id => markForGc s' now fuel parent_id
          | Option.none => some s'
        else some s

/-- `TaskTree::mark_done` (`task_tree.rs:278`): when the id is present,
overwrite its status, run `mark_for_gc`, and enqueue an `end` event;
otherwise do nothing. -/
def mark_done (s : State) (id : Nat) (error_message : Option String)
    (now : Nat) (fuel : Nat) : Option State :=
  match s.tasks id with
  | Option.none => some s
  | some task_internal =>
    let s1 : State :=
      { s with tasks := fun i =>
          if i = id then some (task_internal.mark_done error_message now)
          else s.tasks i }
    match markForGc s1 now fuel id with
    | Option.none => none
    | some s2 => some { s2 with report_end := s2.report_end ++ [id] }

/-- Whether the sweep deletes `id` at instant `now`
(`task_tree.rs:529-535`): marked, and the elapsed time exceeds the
grace period (a clock running backwards yields elapsed 0, never above
the bound). -/
def expired (s : State) (now id : Nat) : Bool :=
  match s.marked id with
  | some time => s.remove_task_after_done_ms < now - time
  | Option.none => false

/-- `TaskTreeInternal::garbage_collect` (`task_tree.rs:527`): delete
every expired id from `tasks`, its own `parent_to_children` entry, the
root set and `child_to_parent`, remove it from its parent's children
set, and drop its mark.  The per-id loop iterations are independent, so
the net effect is pointwise. -/
def garbage_collect (s : State) (now : Nat) : State :=
  { s with
    tasks := fun i => if expired s now i then none else s.tasks i
    parent_to_children := fun p =>
      if expired s now p then none
      else (s.parent_to_children p).map
        (fun children => children.filter
          (fun c => !(expired s now c && s.child_to_parent c == some p)))
    child_to_parent := fun c =>
      if expired s now c then none else s.child_to_parent c
    root_tasks := s.root_tasks.filter (fun i => !expired s now i)
    marked := fun i => if expired s now i then none else s.marked i }

/-- `TaskTree::report_all` (`task_tree.rs:438`) together with
`get_tasks_and_reporters` (`task_tree.rs:549`): swap out both queues,
drop the ids whose task is gone, and invoke every reporter —
first `task_start` for each start snapshot, then `task_end` for each
end snapshot, in enqueue order. -/
def report_all (s : State) : State :=
  let start_tasks := s.report_start.filterMap
    (fun id => (s.tasks id).map (fun _ => id))
  let end_tasks := s.report_end.filterMap
    (fun id => (s.tasks id).map (fun _ => id))
  { s with
    report_start := []
    report_end := []
    delivered := s.delivered ++ start_tasks.map Ev.started
      ++ end_tasks.map Ev.ended }

/-! ## Text reporter formatting (`src/ll/src/reporters/text.rs`)

The `StringReporter` used by the crate's snapshot tests strips ANSI
colour sequences, so the colour combinators are modelled as identity
and the strings below are the stripped output. -/

inductive TaskReportType
  | start
  | end_
deriving DecidableEq

inductive TimestampFormat
  | utc
  | local
  | none
  | redacted
deriving DecidableEq

inductive DurationFormat
  | milliseconds
  | none
deriving DecidableEq

/-- `SystemTime::duration_since`: fails when the right instant is later. -/
def durationSince (a b : Nat) : Option Nat :=
  if b ≤ a then some (a - b) else Option.none

/-- `format_timestamp` (`text.rs:188`), for the `Redacted` and `None`
formats used by tests (the calendar formats are out of scope and kept
abstract as their fixed placeholders when no instant is available). -/
def format_timestamp (timestamp_format : TimestampFormat)
    (_task_internal : TaskInternal) (_report_type : TaskReportType) : String :=
  match timestamp_format with
  | .none => ""
  | .redacted => "[ ] "
  | .local => "[          ]"
  | .utc => "[                    ]"

/-- `format!("{:>6}ms", d)` right-pads the digits to width 6. -/
def padLeft6 (s : String) : String :=
  if s.length < 6 then String.mk (List.replicate (6 - s.length) ' ') ++ s
  else s

/-- `format_status` (`text.rs:238`). -/
def format_status (task_internal : TaskInternal) (format : DurationFormat)
    (report_type : TaskReportType) : String :=
  match report_type with
  | .start => "| STARTING | "
  | .end_ =>
    match task_internal.status with
    | .finished _ finished_at =>
      match durationSince finished_at task_internal.started_at, format with
      | some d, .milliseconds => "| " ++ padLeft6 (toString d) ++ "ms | "
      | some _, .none => ""
      | Option.none, _ => ""
    | .running => ""

/-- `format_name` (`text.rs:228`): `[ERR] ` prefix on failure, then
`full_name` (colours stripped). -/
def format_name (task_internal : TaskInternal)
    (report_type : TaskReportType) : String :=
  match task_internal.status, report_type with
  | .finished (.failure _) _, _ => "[ERR] " ++ task_internal.full_name
  | _, .start => task_internal.full_name
  | _, .end_ => task_internal.full_name

/-- `Display for DataValue` (`data.rs:76`); the float formatting detail
is immaterial to every claim. -/
def DataValue.display : DataValue → String
  | .string s => s
  | .int i => toString i
  | .float f => toString f
  | .none => ""

/-- `TaskInternal::all_data` (`task_tree.rs:601`): direct entries
chained with transitive entries. -/
def TaskInternal.all_data (t : TaskInternal) : List (String × DataEntry) :=
  t.data.map ++ t.data_transitive.map

/-- `format_data` (`text.rs:266`): one indented line per entry not
tagged `dontprint`. -/
def format_data (task_internal : TaskInternal) : String :=
  let data := (task_internal.all_data.filter
      (fun e => !e.2.tags.contains "dontprint")).map
    (fun e => "  |      " ++ e.1 ++ ": " ++ e.2.value.display)
  if data.isEmpty then "" else "\n" ++ String.intercalate "\n" data

/-- `format_error` (`text.rs:284`). -/
def format_error (task_internal : TaskInternal) : String :=
  match task_internal.status with
  | .finished (.failure error_msg) _ =>
    "\n  |\n" ++ String.intercalate "\n"
      ((error_msg.splitOn "\n").map (fun line => "  |  " ++ line))
  | _ => ""

/-- `make_string` (`text.rs:168`). -/
def make_string (task_internal : TaskInternal)
    (timestamp_format : TimestampFormat) (duration_format : DurationFormat)
    (report_type : TaskReportType) : String :=
  let timestamp := format_timestamp timestamp_format task_internal report_type
  let status := format_status task_internal duration_format report_type
  let name := format_name task_internal report_type
  let de := match report_type with
    | .end_ => (format_data task_internal, format_error task_internal)
    | .start => ("", "")
  timestamp ++ status ++ name ++ de.1 ++ de.2

/-! ## Terminal status renderer (`src/ll/src/reporters/term_status.rs`) -/

/-- `parse_level` (`reporters/utils.rs`): collect the `l0`..`l3` tags
and keep the minimum, defaulting to `L1`.  The renderer levels are a
separate enum from the data levels; both orders are by declaration. -/
inductive RLevel
  | L0
  | L1
  | L2
  | L3
deriving DecidableEq, Repr

def RLevel.toNat : RLevel → Nat
  | .L0 => 0
  | .L1 => 1
  | .L2 => 2
  | .L3 => 3

instance : LE RLevel := ⟨fun a b => a.toNat ≤ b.toNat⟩
instance (a b : RLevel) : Decidable (a ≤ b) :=
  inferInstanceAs (Decidable (a.toNat ≤ b.toNat))

def parse_level (task_internal : TaskInternal) : RLevel :=
  let all_level_tags := task_internal.tags.filterMap (fun tag =>
    match tag with
    | "l0" => some RLevel.L0
    | "l1" => some RLevel.L1
    | "l2" => some RLevel.L2
    | "l3" => some RLevel.L3
    | _ => Option.none)
  (all_level_tags.foldl (fun acc l => match acc with
    | some a => some (if l ≤ a then l else a)
    | Option.none => some l) Option.none).getD .L1

/-- `TermStatusInternal::should_print` (`term_status.rs:187`). -/
def should_print (max_log_level : RLevel) (task : TaskInternal) : Bool :=
  !task.tags.contains "nostatus" && decide (parse_level task ≤ max_log_level)

/-- `make_progress` (`term_status.rs:262`): 30-cell bar; filled cells
are spaces on a green background, the rest dots.  The `as usize` casts
are modelled with `Int.toNat`; under the claims' precondition both
lengths are nonnegative so the cast is exact. -/
def make_progress (task : TaskInternal) : String :=
  match task.progress with
  | some (done, total) =>
    let pct_done := Int.tdiv (done * 100) total
    let done_blocks_len := min (Int.tdiv (30 * pct_done) 100) 30
    let todo_blocks_len := 30 - done_blocks_len
    let done_blocks := String.mk (List.replicate done_blocks_len.toNat ' ')
    let todo_blocks := String.mk (List.replicate todo_blocks_len.toNat '.')
    " [" ++ done_blocks ++ todo_blocks ++ "] " ++ toString done ++ "/"
      ++ toString total ++ " "
  | Option.none => ""

/-- `TaskTree::task_progress` (`task_tree.rs:368`). -/
def task_progress (s : State) (id : Nat) (done total : Int) : State :=
  { s with tasks := fun i =>
      if i = id then (s.tasks i).map (fun t => { t with progress := some (done, total) })
      else s.tasks i }

/-- `TermStatusInternal::task_row` (`term_status.rs:192`), ANSI
stripped.  The `?` on the duration propagates a clock error. -/
def task_row (task_internal : TaskInternal) (depth : List Bool) (now : Nat) :
    Except String String :=
  let indent := match depth.getLast? with
    | some last_indent =>
      (String.join ((depth.dropLast).map
        (fun has_vertical_line => if has_vertical_line then "│ " else "  ")))
        ++ (if last_indent then "├ " else "╰ ")
    | Option.none => ""
  let status := match task_internal.status with
    | .running => " ▶ "
    | .finished .success _ => " ✓ "
    | .finished (.failure _) _ => " x "
  let progress := make_progress task_internal
  let duration := match task_internal.status with
    | .finished _ finished_at => durationSince finished_at task_internal.started_at
    | .running => durationSince now task_internal.started_at
  match duration with
  | Option.none => .error "SystemTimeError"
  | some d =>
    let secs := d / 1000
    let millis := (d % 1000) / 100
    let ts := " [" ++ toString secs ++ "." ++ toString millis ++ "s] "
    .ok (indent ++ status ++ ts ++ progress ++ task_internal.name)

/-- The DFS loop body of `make_status_rows` (`term_status.rs:149`). -/
def statusRowsLoop (s : State) (max_log_level : RLevel) (now : Nat) :
    Nat → List (Nat × List Bool) → List String → Except String (List String)
  | _, [], rows => .ok rows
  | 0, _ :: _, _ => .error "out of fuel"
  | fuel + 1, (id, depth) :: stack, rows =>
    match s.tasks id with
    | Option.none => .error "must be present"
    | some task =>
      let dontprint := !should_print max_log_level task
      let children := (s.parent_to_children id).getD []
      let last_visible_child := (children.filter (fun cid =>
        match s.tasks cid with
        | some t => should_print max_log_level t
        | Option.none => false)).getLast?
      let append_to_stack := children.map (fun subtask_id =>
        (subtask_id,
          if dontprint then depth
          else depth ++ [decide (some subtask_id ≠ last_visible_child)]))
      match (if dontprint then Except.ok rows
             else (task_row task depth now).map (fun r => rows ++ [r])) with
      | .error e => .error e
      | .ok rows' => statusRowsLoop s max_log_level now fuel
          (append_to_stack ++ stack) rows'

/-- `TermStatusInternal::make_status_rows` (`term_status.rs:136`): seed
the stack with the roots that have no parent entry, then DFS. -/
def make_status_rows (s : State) (max_log_level : RLevel) (now : Nat)
    (fuel : Nat) : Except String (List String) :=
  let stack := (s.root_tasks.filter
    (fun id => (s.child_to_parent id).isNone)).map (fun id => (id, ([] : List Bool)))
  statusRowsLoop s max_log_level now fuel stack []

/-! ## Trace dumper (`TaskTree::dump_trace`, `task_tree.rs:382`) -/

structure TaskTrace where
  name : String
  start : Nat
  finished_at : Option Nat
  data : List (String × String)
  children : List Nat

structure Trace where
  root_id : Nat
  tasks : List (Nat × TaskTrace)

def insertTrace (m : List (Nat × TaskTrace)) (k : Nat) (v : TaskTrace) :
    List (Nat × TaskTrace) :=
  if m.any (fun e => e.1 = k) then
    m.map (fun e => if e.1 = k then (k, v) else e)
  else m ++ [(k, v)]

/-- The walk of `dump_trace`: a missing task id aborts the whole dump
with the `lost task` error. -/
def dumpTraceLoop (s : State) :
    Nat → List Nat → List (Nat × TaskTrace) → Except String (List (Nat × TaskTrace))
  | _, [], acc => .ok acc
  | 0, _ :: _, _ => .error "out of fuel"
  | fuel + 1, next :: stack, acc =>
    match s.tasks next with
    | Option.none => .error ("lost task. ID " ++ toString next)
    | some task =>
      let children := (s.parent_to_children next).getD []
      let task_trace : TaskTrace :=
        { name := task.full_name
          start := task.started_at
          finished_at := match task.status with
            | .finished _ finished_at => some finished_at
            | .running => Option.none
          data := task.all_data.map (fun e => (e.1, e.2.value.display))
          children := children }
      dumpTraceLoop s fuel (children.reverse ++ stack)
        (insertTrace acc next task_trace)

def dump_trace (s : State) (id : Nat) (fuel : Nat) : Except String Trace :=
  (dumpTraceLoop s fuel [id] []).map (fun tasks => ⟨id, tasks⟩)

/-! ## Operation sequences -/

/-- The operations the invariant claims quantify over: task creation,
`mark_done`, event-pump iterations and GC sweeps. -/
inductive Op
  | create (name : String) (parent : Option Nat) (now : Nat)
  | markDone (id : Nat) (error_message : Option String) (now fuel : Nat)
  | pump
  | sweep (now : Nat)

def applyOp (s : State) : Op → Option State
  | .create name parent now => some (create_task_internal s name parent now).1
  | .markDone id err now fuel => mark_done s id err now fuel
  | .pump => some (report_all s)
  | .sweep now => some (garbage_collect s now)

/-- Run a sequence of operations. -/
def run (s : State) : List Op → Option State
  | [] => some s
  | op :: ops =>
    match applyOp s op with
    | Option.none => none
    | some s' => run s' ops

/-- Number of `mark_done` calls for a given id in an operation list. -/
def countMD (ops : List Op) (id : Nat) : Nat :=
  ops.countP (fun op => match op with
    | .markDone i _ _ _ => i == id
    | _ => false)

/-- Whether an operation list contains no GC sweep. -/
def NoSweep (ops : List Op) : Bool :=
  ops.all (fun op => match op with
    | .sweep _ => false
    | _ => true)

/-! ## Basic lemmas about `mark_for_gc` -/

/-- `mark_for_gc` only ever writes to `tasks_marked_for_deletion`; this
relation says two states agree on every other field. -/
def EqButMarked (s s' : State) : Prop :=
  s'.tasks = s.tasks ∧ s'.parent_to_children = s.parent_to_children ∧
  s'.child_to_parent = s.child_to_parent ∧ s'.root_tasks = s.root_tasks ∧
  s'.report_start = s.report_start ∧ s'.report_end = s.report_end ∧
  s'.data_transitive = s.data_transitive ∧
  s'.remove_task_after_done_ms = s.remove_task_after_done_ms ∧
  s'.hide_errors_default_msg = s.hide_errors_default_msg ∧
  s'.attach_transitive_data_to_errors_default
    = s.attach_transitive_data_to_errors_default ∧
  s'.next_id = s.next_id ∧ s'.delivered = s.delivered

theorem eqButMarked_refl (s : State) : EqButMarked s s := by
  refine ⟨rfl, rfl, rfl, rfl, rfl, rfl, rfl, rfl, rfl, rfl, rfl, rfl⟩

theorem eqButMarked_marked (s : State) (f : Nat → Option Nat) :
    EqButMarked s { s with marked := f } := eqButMarked_refl s

theorem eqButMarked_trans {s t u : State} (h1 : EqButMarked s t)
    (h2 : EqButMarked t u) : EqButMarked s u := by
  obtain ⟨a1, a2, a3, a4, a5, a6, a7, a8, a9, a10, a11, a12⟩ := h1
  obtain ⟨b1, b2, b3, b4, b5, b6, b7, b8, b9, b10, b11, b12⟩ := h2
  exact ⟨b1.trans a1, b2.trans a2, b3.trans a3, b4.trans a4, b5.trans a5,
    b6.trans a6, b7.trans a7, b8.trans a8, b9.trans a9, b10.trans a10,
    b11.trans a11, b12.trans a12⟩

theorem markForGc_eqButMarked :
    ∀ (fuel : Nat) (s : State) (now id : Nat) (s' : State),
    markForGc s now fuel id = some s' → EqButMarked s s' := by
  intro fuel
  induction fuel with
  | zero => intro s now id s' h; simp [markForGc] at h
  | succ n ih =>
    intro s now id s' h
    unfold markForGc at h
    cases hw : holdWalk s (n + 1) (some id) with
    | none => rw [hw] at h; exact absurd h (by simp)
    | some b =>
      rw [hw] at h
      cases b with
      | true =>
        simp only [Option.some.injEq] at h
        exact h ▸ eqButMarked_refl s
      | false =>
        simp only at h
        cases hc : collectSubtree s (n + 1) [id] [] with
        | none => rw [hc] at h; exact absurd h (by simp)
        | some pairs =>
          rw [hc] at h
          simp only at h
          by_cases hall : pairs.all (fun e => e.2) = true
          · rw [if_pos hall] at h
            cases hp : s.child_to_parent id with
            | none =>
              rw [hp] at h
              simp only [Option.some.injEq] at h
              exact h ▸ eqButMarked_marked s _
            | some parent_id =>
              rw [hp] at h
              exact eqButMarked_trans (eqButMarked_marked s _) (ih _ now parent_id s' h)
          · rw [if_neg hall] at h
            simp only [Option.some.injEq] at h
            exact h ▸ eqButMarked_refl s

/-- Every entry produced by the subtree DFS either came from the
accumulator or records the finished status of a task present in the
map. -/
theorem collectSubtree_spec :
    ∀ (fuel : Nat) (s : State) (stack : List Nat) (acc res : List (Nat × Bool)),
    collectSubtree s fuel stack acc = some res →
    ∀ p ∈ res, p ∈ acc ∨
      (∃ t, s.tasks p.1 = some t ∧ p.2 = t.status.isFinished) := by
  intro fuel
  induction fuel with
  | zero =>
    intro s stack acc res h p hp
    cases stack with
    | nil =>
      simp only [collectSubtree, Option.some.injEq] at h
      exact Or.inl (h ▸ hp)
    | cons a l => simp [collectSubtree] at h
  | succ n ih =>
    intro s stack acc res h p hp
    cases stack with
    | nil =>
      simp only [collectSubtree, Option.some.injEq] at h
      exact Or.inl (h ▸ hp)
    | cons id rest =>
      simp only [collectSubtree] at h
      cases ht : s.tasks id with
      | none =>
        rw [ht] at h
        exact ih s _ _ _ h p hp
      | some task =>
        rw [ht] at h
        simp only at h
        rcases ih s _ _ _ h p hp with hacc | hfin
        · unfold insertNB at hacc
          by_cases hmem : acc.any (fun e => e.1 = id) = true
          · rw [if_pos hmem] at hacc
            rcases List.mem_map.mp hacc with ⟨q, hq, heq⟩
            by_cases hq1 : q.1 = id
            · rw [if_pos hq1] at heq
              exact Or.inr ⟨task, heq ▸ ht, by rw [← heq]⟩
            · rw [if_neg hq1] at heq
              exact Or.inl (heq ▸ hq)
          · rw [if_neg hmem] at hacc
            rcases List.mem_append.mp hacc with hq | hq
            · exact Or.inl hq
            · simp only [List.mem_singleton] at hq
              exact Or.inr ⟨task, hq ▸ ht, by rw [hq]⟩
        · exact Or.inr hfin

/-- Marks added by `mark_for_gc` carry the current instant and belong
to finished tasks already present in the map. -/
theorem markForGc_marked :
    ∀ (fuel : Nat) (s : State) (now id : Nat) (s' : State),
    markForGc s now fuel id = some s' →
    ∀ i, s'.marked i = s.marked i ∨
      (s'.marked i = some now ∧ s.marked i = Option.none ∧
        ∃ t, s.tasks i = some t ∧ t.status.isFinished = true) := by
  intro fuel
  induction fuel with
  | zero => intro s now id s' h; simp [markForGc] at h
  | succ n ih =>
    intro s now id s' h i
    unfold markForGc at h
    cases hw : holdWalk s (n + 1) (some id) with
    | none => rw [hw] at h; exact absurd h (by simp)
    | some b =>
      rw [hw] at h
      cases b with
      | true =>
        simp only [Option.some.injEq] at h
        exact Or.inl (by rw [← h])
      | false =>
        simp only at h
        cases hc : collectSubtree s (n + 1) [id] [] with
        | none => rw [hc] at h; exact absurd h (by simp)
        | some pairs =>
          rw [hc] at h
          simp only at h
          by_cases hall : pairs.all (fun e => e.2) = true
          · rw [if_pos hall] at h
            set f : Nat → Option Nat := fun j =>
              if (pairs.map (fun e => e.1)).contains j then
                match s.marked j with
                | some t => some t
                | Option.none => some now
              else s.marked j with hf
            have hmid : ∀ j, f j = s.marked j ∨
                (f j = some now ∧ s.marked j = Option.none ∧
                  ∃ t, s.tasks j = some t ∧ t.status.isFinished = true) := by
              intro j
              rw [hf]
              by_cases hcont : (pairs.map (fun e => e.1)).contains j = true
              · simp only [hcont, if_pos]
                cases hm : s.marked j with
                | some t => exact Or.inl rfl
                | none =>
                  refine Or.inr ⟨rfl, rfl, ?_⟩
                  rcases List.mem_map.mp (List.mem_of_elem_eq_true hcont)
                    with ⟨q, hq, hq1⟩
                  rcases collectSubtree_spec _ s _ _ _ hc q hq with habs | hfin
                  · simp at habs
                  · rcases hfin with ⟨t, ht, hb⟩
                    have := List.all_eq_true.mp hall q hq
                    exact ⟨t, hq1 ▸ ht, by rw [← hb, this]⟩
              · simp only [Bool.not_eq_true] at hcont
                simp only [hcont]
                exact Or.inl (by simp)
            cases hp : s.child_to_parent id with
            | none =>
              rw [hp] at h
              simp only [Option.some.injEq] at h
              have : s'.marked i = f i := by rw [← h]
              rw [this]; exact hmid i
            | some parent_id =>
              rw [hp] at h
              have hmid_state : ({ s with marked := f } : State).marked = f := rfl
              rcases ih _ now parent_id s' h i with h1 | h1
              · rw [hmid_state] at h1
                rcases hmid i with h2 | h2
                · exact Or.inl (h1.trans h2)
                · exact Or.inr ⟨h1.trans h2.1, h2.2⟩
              · rw [hmid_state] at h1
                rcases h1 with ⟨ha, hb, hcfin⟩
                rcases hmid i with h2 | h2
                · exact Or.inr ⟨ha, h2 ▸ hb, hcfin⟩
                · exact Or.inr ⟨ha, h2.2.1, hcfin⟩
          · rw [if_neg hall] at h
            simp only [Option.some.injEq] at h
            exact Or.inl (by rw [← h])


/-! ## Claim C1: repeated `mark_done` -/

/-- `mark_done` is last-wins: whenever the id is still present, the call
overwrites the stored result and `finished_at` and enqueues one more
`end` event; on an unknown id it is a no-op. -/
theorem C1_mark_done_last_wins (s : State) (id : Nat) (err : Option String)
    (now fuel : Nat) (s' : State)
    (hrun : mark_done s id err now fuel = some s') :
    (s.tasks id = Option.none → s' = s) ∧
    (∀ t, s.tasks id = some t →
      s'.tasks id = some (t.mark_done err now) ∧
      s'.report_end = s.report_end ++ [id] ∧
      s'.report_start = s.report_start ∧
      s'.delivered = s.delivered) := by
  unfold mark_done at hrun
  cases ht : s.tasks id with
  | none =>
    rw [ht] at hrun
    simp only [Option.some.injEq] at hrun
    refine ⟨fun _ => hrun.symm, fun t h0 => absurd h0 (by simp)⟩
  | some task =>
    rw [ht] at hrun
    simp only at hrun
    refine ⟨fun h0 => absurd h0 (by simp), fun t h0 => ?_⟩
    injection h0 with h0
    subst h0
    cases hgc : markForGc
        { s with tasks := fun i =>
            if i = id then some (task.mark_done err now) else s.tasks i }
        now fuel id with
    | none => rw [hgc] at hrun; cases hrun
    | some s2 =>
      rw [hgc] at hrun
      simp only [Option.some.injEq] at hrun
      obtain ⟨e1, e2, e3, e4, e5, e6, e7, e8, e9, e10, e11, e12⟩ :=
        markForGc_eqButMarked _ _ now id _ hgc
      subst hrun
      refine ⟨?_, ?_, ?_, ?_⟩
      · show s2.tasks id = _
        rw [e1]
        simp
      · show s2.report_end ++ [id] = s.report_end ++ [id]
        rw [e6]
      · show s2.report_start = s.report_start
        rw [e5]
      · show s2.delivered = s.delivered
        rw [e12]

def c1s0 : State := (create_task_internal (initState 5000) "a" Option.none 0).1

def c1s1 : State := (mark_done c1s0 0 Option.none 1 9).getD c1s0

def c1s2 : State := (mark_done c1s1 0 (some "e") 2 9).getD c1s1

/-- C1: refuting "first call wins / subsequent calls are no-ops": after
a first successful `mark_done` at instant 1, a second call at instant 2
with an error message overwrites the stored result and timestamp and
enqueues a second `end` event. -/
theorem C1_counterexample :
    c1s1.report_end = [0] ∧
    (c1s1.tasks 0).map (fun t => t.status)
      = some (.finished .success 1) ∧
    c1s2.report_end = [0, 0] ∧
    (c1s2.tasks 0).map (fun t => t.status)
      = some (.finished (.failure "e") 2) :=
  ⟨rfl, rfl, rfl, rfl⟩

/-- Witness for `C1_mark_done_last_wins` at a concrete tree. -/
theorem C1_witness :
    (mark_done c1s0 0 Option.none 1 9 = some c1s1) ∧
    c1s1.report_end = c1s0.report_end ++ [0] :=
  ⟨rfl, by
    have h := C1_mark_done_last_wins c1s0 0 Option.none 1 9 c1s1 rfl
    exact ((h.2 _ rfl).2.1)⟩

/-! ## Claim C5: the rendered task name -/

def c5task : TaskInternal :=
  { id := 5
    name := "test_3"
    parent_names := ["root"]
    started_at := 0
    status := .finished .success 0
    data := Data.empty
    data_transitive := Data.empty
    tags := []
    progress := Option.none
    hide_errors := Option.none
    attach_transitive_data_to_errors := true
    keep_subtree_until_finished := false }

/-- C5: the name rendered by the text reporter is `full_name`, but
`full_name` prepends the numeric task id and a dash, so the line for
scenario S1's `root`/`test_3` task comes out as `[ ] 5-root:test_3`
rather than the `[ ] root:test_3` expected by the spec and by the
crate's own snapshot test (`src/ll/src/tests/basic_test.rs`). -/
theorem C5_full_name_has_id_prefix :
    c5task.full_name = "5-root:test_3" ∧
    make_string c5task .redacted .none .end_ = "[ ] 5-root:test_3" ∧
    "5-root:test_3" ≠ "root:test_3" := by
  refine ⟨rfl, ?_, by decide⟩
  rfl

/-! ## Claim C10: creating a task under an unknown parent -/

/-- C10: when the requested parent id is not in the task map, the new
task is silently created as a root: it lands in `root_tasks`, gets no
`child_to_parent` entry, has empty `parent_names`, and its transitive
data is exactly the tree-wide seed; both parent/child indices are left
untouched and the operation still returns an id (no error). -/
theorem C10_unknown_parent_creates_root (s : State) (name : String)
    (pid now : Nat) (hmissing : s.tasks pid = Option.none)
    (hfresh : s.child_to_parent s.next_id = Option.none) :
    (create_task_internal s name (some pid) now).2 = s.next_id ∧
    (create_task_internal s name (some pid) now).1.root_tasks
      = s.root_tasks ++ [s.next_id] ∧
    (create_task_internal s name (some pid) now).1.child_to_parent
      = s.child_to_parent ∧
    (create_task_internal s name (some pid) now).1.parent_to_children
      = s.parent_to_children ∧
    (create_task_internal s name (some pid) now).1.child_to_parent s.next_id
      = Option.none ∧
    ((create_task_internal s name (some pid) now).1.tasks s.next_id).map
        (fun t => (t.parent_names, t.data_transitive.map, t.status))
      = some ([], s.data_transitive.map, .running) := by
  have hb : (some pid).bind s.tasks = Option.none := by
    simp [hmissing]
  unfold create_task_internal
  rw [hb]
  exact ⟨rfl, rfl, rfl, rfl, hfresh, by simp⟩

/-- Witness for `C10_unknown_parent_creates_root`: an empty tree and the
never-allocated parent id 7. -/
theorem C10_witness :
    (initState 0).tasks 7 = Option.none ∧
    (create_task_internal (initState 0) "a" (some 7) 0).1.root_tasks = [0] ∧
    (create_task_internal (initState 0) "a" (some 7) 0).1.child_to_parent 0
      = Option.none ∧
    ((create_task_internal (initState 0) "a" (some 7) 0).1.tasks 0).map
        (fun t => (t.parent_names, t.data_transitive.map, t.status))
      = some ([], [], .running) := by
  have h := C10_unknown_parent_creates_root (initState 0) "a" 7 0 rfl rfl
  exact ⟨rfl, h.2.1, h.2.2.2.2.1, h.2.2.2.2.2⟩

/-! ## Claim C7: missing task during dump or frame construction -/

/-- A missing task id does not get skipped: `dump_trace` aborts with the
`lost task` error as soon as the walk reaches it, and the status-frame
builder propagates its `must be present` error, failing the whole
frame. -/
theorem C7_missing_task_aborts (s : State) (id fuel now : Nat)
    (lvl : RLevel) (hmissing : s.tasks id = Option.none) :
    dump_trace s id (fuel + 1) = .error ("lost task. ID " ++ toString id) ∧
    (s.root_tasks = [id] → s.child_to_parent id = Option.none →
      make_status_rows s lvl now (fuel + 1) = .error "must be present") := by
  constructor
  · unfold dump_trace dumpTraceLoop
    rw [hmissing]
    rfl
  · intro hroots hc2p
    unfold make_status_rows
    rw [hroots]
    rw [show List.filter (fun id => (s.child_to_parent id).isNone) [id] = [id] by
      simp [List.filter, hc2p]]
    simp only [List.map_cons, List.map_nil]
    unfold statusRowsLoop
    rw [hmissing]

def c7ops : List Op :=
  [.create "a" Option.none 0, .markDone 0 Option.none 0 9, .sweep 1]

/-- C7: refuting "skip the node, the whole operation does not fail": in
the reachable tree where task 0 was created, finished and then swept
(grace period 0), `dump_trace 0` fails with the `lost task` error
instead of producing a dump. -/
theorem C7_counterexample :
    (run (initState 0) c7ops).map (fun s =>
      match dump_trace s 0 5 with
      | .error e => e
      | .ok _ => "ok") = some ("lost task. ID " ++ toString 0) := rfl

def c7state : State := { initState 0 with root_tasks := [0] }

/-- Witness for `C7_missing_task_aborts`: a tree whose root set contains
an id with no task record. -/
theorem C7_witness :
    c7state.tasks 0 = Option.none ∧
    dump_trace c7state 0 1 = .error ("lost task. ID " ++ toString 0) ∧
    make_status_rows c7state .L1 0 1 = .error "must be present" := by
  have h := C7_missing_task_aborts c7state 0 0 0 .L1 rfl
  exact ⟨rfl, h.1, h.2 rfl rfl⟩


/-! ## Claim C6: level filtering of a data store -/

/-- In an association list with distinct keys, a key determines its
entry. -/
theorem keys_nodup_unique :
    ∀ (m : List (String × DataEntry)), (m.map Prod.fst).Nodup →
    ∀ (k : String) (a b : DataEntry), (k, a) ∈ m → (k, b) ∈ m → a = b := by
  intro m
  induction m with
  | nil => intro _ k a b ha _; cases ha
  | cons p rest ih =>
    intro hnodup k a b ha hb
    rw [List.map_cons, List.nodup_cons] at hnodup
    rcases List.mem_cons.mp ha with ha1 | ha1 <;>
      rcases List.mem_cons.mp hb with hb1 | hb1
    · rw [← ha1] at hb1; exact (Prod.mk.injEq _ _ _ _ ▸ hb1).2.symm
    · exfalso
      apply hnodup.1
      rw [← ha1]
      exact List.mem_map.mpr ⟨(k, b), hb1, rfl⟩
    · exfalso
      apply hnodup.1
      rw [← hb1]
      exact List.mem_map.mpr ⟨(k, a), ha1, rfl⟩
    · exact ih hnodup.2 k a b ha1 hb1

/-- `Level.Info` is the least level. -/
theorem Level.info_le (L : Level) : Level.Info ≤ L := by
  cases L <;> decide

/-- C6: `filter_for_level L` keeps exactly the entries whose tag-derived
level is at most `L`, where an entry with no recognized level tag gets
the default level (the least one, `Info`, the level the spec calls L1)
and hence is always kept. -/
theorem C6_filter_for_level (d : Data) (L : Level)
    (hnodup : (d.map.map Prod.fst).Nodup) (k : String) (e : DataEntry) :
    ((k, e) ∈ (d.filter_for_level L).map ↔
      ((k, e) ∈ d.map ∧
        (extract_log_level_from_tags e.tags).getD .Info ≤ L)) := by
  unfold Data.filter_for_level
  simp only [List.mem_filter, Bool.not_eq_true']
  constructor
  · rintro ⟨hmem, hnc⟩
    refine ⟨hmem, ?_⟩
    cases hx : extract_log_level_from_tags e.tags with
    | none => simpa using Level.info_le L
    | some l =>
      simp only [hx, Option.getD_some]
      by_contra hlt
      have hLl : L < l := by
        have := Nat.lt_of_not_le (fun hc => hlt hc)
        exact this
      have hP : (fun e : String × DataEntry =>
          match extract_log_level_from_tags e.2.tags with
          | some entry_log_level => decide (L < entry_log_level)
          | Option.none => false) (k, e) = true := by
        simp only [hx]
        exact decide_eq_true hLl
      have hkin : k ∈ (List.filter (fun e : String × DataEntry =>
          match extract_log_level_from_tags e.2.tags with
          | some entry_log_level => decide (L < entry_log_level)
          | Option.none => false) d.map).map (fun e => e.1) :=
        List.mem_map.mpr ⟨(k, e), List.mem_filter.mpr ⟨hmem, hP⟩, rfl⟩
      rw [List.contains_eq_any_beq] at hnc
      have : ¬ k ∈ (List.filter (fun e : String × DataEntry =>
          match extract_log_level_from_tags e.2.tags with
          | some entry_log_level => decide (L < entry_log_level)
          | Option.none => false) d.map).map (fun e => e.1) := by
        intro hmem2
        have := List.any_eq_true.mpr ⟨k, hmem2, beq_self_eq_true k⟩
        rw [this] at hnc
        cases hnc
      exact this hkin
  · rintro ⟨hmem, hle⟩
    refine ⟨hmem, ?_⟩
    rw [Bool.eq_false_iff]
    intro hcont
    rcases List.mem_map.mp (List.mem_of_elem_eq_true hcont) with ⟨q, hq, hq1⟩
    have hqmem := (List.mem_filter.mp hq).1
    have hqP := (List.mem_filter.mp hq).2
    have hkeq : q.1 = k := hq1
    have hq2 : q.2 = e := by
      apply keys_nodup_unique d.map hnodup k q.2 e
      · rw [← hkeq]; exact hqmem
      · exact hmem
    rw [hq2] at hqP
    cases hx : extract_log_level_from_tags e.tags with
    | none => rw [hx] at hqP; cases hqP
    | some l =>
      rw [hx] at hqP
      have hLl : L < l := of_decide_eq_true hqP
      rw [hx] at hle
      simp only [Option.getD_some] at hle
      exact absurd hle (Nat.not_le_of_lt hLl)

def c6entryA : DataEntry := ⟨.int 1, []⟩

def c6entryB : DataEntry := ⟨.int 2, ["trace"]⟩

def c6data : Data := ⟨[("a", c6entryA), ("b", c6entryB)]⟩

/-- Witness for `C6_filter_for_level` on a concrete store and the
lowest bound. -/
theorem C6_witness :
    ((c6data.map.map Prod.fst).Nodup) ∧
    (("a", c6entryA) ∈ (c6data.filter_for_level .Info).map ↔
      (("a", c6entryA) ∈ c6data.map ∧
        (extract_log_level_from_tags c6entryA.tags).getD .Info ≤ .Info)) :=
  ⟨by decide, C6_filter_for_level c6data .Info (by decide) "a" c6entryA⟩

/-! ## Claim C9: the progress bar -/

/-- C9: under `0 ≤ done ≤ total`, `total ≠ 0`, the progress-bar
computation is well defined: the filled-cell count
`min((30 * ((done*100)/total))/100, 30)` is between 0 and 30, filled
cells plus dot cells always total 30, the rendered bar is exactly the
bracketed cells followed by `done/total`, and `task_progress` stores
the pair the bar is computed from. -/
theorem C9_progress_bar (t : TaskInternal) (done total : Int)
    (hp : t.progress = some (done, total))
    (h0 : 0 ≤ done) (hdt : done ≤ total) (hnz : total ≠ 0) :
    0 ≤ min (Int.tdiv (30 * Int.tdiv (done * 100) total) 100) 30 ∧
    min (Int.tdiv (30 * Int.tdiv (done * 100) total) 100) 30 ≤ 30 ∧
    (min (Int.tdiv (30 * Int.tdiv (done * 100) total) 100) 30).toNat
      + (30 - min (Int.tdiv (30 * Int.tdiv (done * 100) total) 100) 30).toNat
      = 30 ∧
    make_progress t = " ["
      ++ String.mk (List.replicate
          (min (Int.tdiv (30 * Int.tdiv (done * 100) total) 100) 30).toNat ' ')
      ++ String.mk (List.replicate
          (30 - min (Int.tdiv (30 * Int.tdiv (done * 100) total) 100) 30).toNat '.')
      ++ "] " ++ toString done ++ "/" ++ toString total ++ " " ∧
    (∀ (s : State) (id : Nat),
      (task_progress s id done total).tasks id
        = (s.tasks id).map (fun u => { u with progress := some (done, total) })) := by
  have htotal : 0 < total := by omega
  have hpct : 0 ≤ Int.tdiv (done * 100) total :=
    Int.tdiv_nonneg (by positivity) (le_of_lt htotal)
  have hfill0 : 0 ≤ min (Int.tdiv (30 * Int.tdiv (done * 100) total) 100) 30 :=
    le_min (Int.tdiv_nonneg (by positivity) (by norm_num)) (by norm_num)
  have hfill30 : min (Int.tdiv (30 * Int.tdiv (done * 100) total) 100) 30 ≤ 30 :=
    min_le_right _ _
  refine ⟨hfill0, hfill30, by omega, ?_, ?_⟩
  · simp only [make_progress, hp]
  · intro s id
    simp [task_progress]

def c9task : TaskInternal :=
  { id := 0
    name := "t"
    parent_names := []
    started_at := 0
    status := .running
    data := Data.empty
    data_transitive := Data.empty
    tags := []
    progress := some (25, 100)
    hide_errors := Option.none
    attach_transitive_data_to_errors := true
    keep_subtree_until_finished := false }

/-- Witness for `C9_progress_bar`: `progress(25, 100)` renders the S6
bar with 7 filled cells and 23 dots. -/
theorem C9_witness :
    c9task.progress = some (25, 100) ∧
    (0 : Int) ≤ 25 ∧ (25 : Int) ≤ 100 ∧ (100 : Int) ≠ 0 ∧
    (min (Int.tdiv (30 * Int.tdiv ((25 : Int) * 100) 100) 100) 30).toNat = 7 ∧
    make_progress c9task = " [       .......................] 25/100 " := by
  have h := C9_progress_bar c9task 25 100 rfl (by decide) (by decide) (by decide)
  refine ⟨rfl, by decide, by decide, by decide, by decide, ?_⟩
  rw [h.2.2.2.1]
  decide


/-! ## Reachability invariants

These support claims C2, C3 and C4.  `Fresh` says ids at or above the
allocator counter occur nowhere; `Inv1` is spec invariant 3-1;
`MarkedFin` says only finished tasks are marked for deletion;
`StartCount` bounds start deliveries; `StartSupport` says a live task's
start event was delivered or is still queued; `Prec` says every
delivered `end` is preceded by the task's `start`. -/

def Fresh (s : State) : Prop := ∀ i, s.next_id ≤ i →
  s.tasks i = Option.none ∧ s.child_to_parent i = Option.none ∧
  s.marked i = Option.none ∧ i ∉ s.root_tasks ∧ i ∉ s.report_start ∧
  i ∉ s.report_end ∧ s.delivered.count (.started i) = 0 ∧
  s.delivered.count (.ended i) = 0

def Inv1 (s : State) : Prop := ∀ i t, s.tasks i = some t →
  i ∈ s.root_tasks ∨ (s.child_to_parent i).isSome = true

def MarkedFin (s : State) : Prop := ∀ i time, s.marked i = some time →
  ∃ t, s.tasks i = some t ∧ t.status.isFinished = true

def StartCount (s : State) : Prop :=
  ∀ i, s.report_start.count i + s.delivered.count (.started i) ≤ 1

def StartSupport (s : State) : Prop := ∀ i, (s.tasks i).isSome = true →
  Ev.started i ∈ s.delivered ∨ i ∈ s.report_start

def Prec (s : State) : Prop := ∀ i l1 l2,
  s.delivered = l1 ++ Ev.ended i :: l2 → Ev.started i ∈ l1

structure GInv (s : State) : Prop where
  fresh : Fresh s
  inv1 : Inv1 s
  markedFin : MarkedFin s
  startCount : StartCount s
  startSupport : StartSupport s
  prec : Prec s

/-! ### List counting helpers -/

theorem count_map_started_started (l : List Nat) (i : Nat) :
    (l.map Ev.started).count (Ev.started i) = l.count i := by
  induction l with
  | nil => rfl
  | cons a t ih =>
    simp only [List.map_cons, List.count_cons, ih]
    congr 1
    by_cases h : a = i
    · subst h; simp
    · simp [h]

theorem count_map_started_ended (l : List Nat) (i : Nat) :
    (l.map Ev.started).count (Ev.ended i) = 0 := by
  induction l with
  | nil => rfl
  | cons a t ih => simp [List.count_cons, ih]

theorem count_map_ended_ended (l : List Nat) (i : Nat) :
    (l.map Ev.ended).count (Ev.ended i) = l.count i := by
  induction l with
  | nil => rfl
  | cons a t ih =>
    simp only [List.map_cons, List.count_cons, ih]
    congr 1
    by_cases h : a = i
    · subst h; simp
    · simp [h]

theorem count_map_ended_started (l : List Nat) (i : Nat) :
    (l.map Ev.ended).count (Ev.started i) = 0 := by
  induction l with
  | nil => rfl
  | cons a t ih => simp [List.count_cons, ih]

theorem count_filterMap_le (l : List Nat) (f : Nat → Option Nat)
    (hf : ∀ a b, f a = some b → b = a) (i : Nat) :
    (l.filterMap f).count i ≤ l.count i := by
  induction l with
  | nil => exact Nat.le_refl 0
  | cons a t ih =>
    rw [List.filterMap_cons]
    cases hfa : f a with
    | none =>
      rw [List.count_cons]
      exact ih.trans (Nat.le_add_right _ _)
    | some b =>
      have hba := hf a b hfa
      subst hba
      rw [List.count_cons, List.count_cons]
      exact Nat.add_le_add ih (Nat.le_refl _)

theorem count_singleton_self (i : Nat) : List.count i [i] = 1 := by simp

theorem count_singleton_ne (i j : Nat) (h : j ≠ i) : List.count i [j] = 0 := by
  simp [List.count_cons, h]

/-- Splitting an occurrence inside a concatenation: it lands in the left
part or the right part. -/
theorem append_occ_split {α : Type} (A : List α) :
    ∀ (B l1 l2 : List α) (x : α), A ++ B = l1 ++ x :: l2 →
    (∃ l2a, A = l1 ++ x :: l2a) ∨
    (∃ l1b l2b, B = l1b ++ x :: l2b ∧ l1 = A ++ l1b) := by
  induction A with
  | nil =>
    intro B l1 l2 x h
    right
    exact ⟨l1, l2, h, by simp⟩
  | cons a A ih =>
    intro B l1 l2 x h
    cases l1 with
    | nil =>
      simp only [List.nil_append, List.cons_append] at h
      injection h with h1 h2
      subst h1
      left
      exact ⟨A, rfl⟩
    | cons b l1' =>
      simp only [List.cons_append] at h
      injection h with h1 h2
      subst h1
      rcases ih B l1' l2 x h2 with ⟨l2a, ha⟩ | ⟨l1b, l2b, hb, hl⟩
      · left
        exact ⟨l2a, by rw [List.cons_append, ha]⟩
      · right
        exact ⟨l1b, l2b, hb, by rw [List.cons_append, hl]⟩


/-- Task creation preserves the reachability invariants. -/
theorem GInv_create (s : State) (name : String) (parent : Option Nat)
    (now : Nat) (hg : GInv s) :
    GInv (create_task_internal s name parent now).1 := by
  obtain ⟨hfresh, hinv1, hmf, hsc, hss, hprec⟩ := hg
  unfold create_task_internal
  cases hb : parent.bind s.tasks with
  | none =>
    simp only
    constructor
    · intro i hi
      have hlt : s.next_id < i := hi
      obtain ⟨f1, f2, f3, f4, f5, f6, f7, f8⟩ := hfresh i (by omega)
      have hne : i ≠ s.next_id := by omega
      refine ⟨?_, f2, f3, ?_, ?_, f6, f7, f8⟩
      · simp only [if_neg hne]; exact f1
      · intro hmem
        rcases List.mem_append.mp hmem with h | h
        · exact f4 h
        · simp only [List.mem_singleton] at h; exact hne h
      · intro hmem
        rcases List.mem_append.mp hmem with h | h
        · exact f5 h
        · simp only [List.mem_singleton] at h; exact hne h
    · intro i t ht
      by_cases hi : i = s.next_id
      · subst hi
        left
        exact List.mem_append.mpr (Or.inr (List.mem_singleton.mpr rfl))
      · simp only [if_neg hi] at ht
        rcases hinv1 i t ht with h | h
        · left; exact List.mem_append.mpr (Or.inl h)
        · right; exact h
    · intro i time hm
      by_cases hi : i = s.next_id
      · subst hi
        obtain ⟨_, _, f3, _⟩ := hfresh s.next_id (Nat.le_refl _)
        rw [f3] at hm; cases hm
      · obtain ⟨t, ht, hfin⟩ := hmf i time hm
        exact ⟨t, by simp only [if_neg hi]; exact ht, hfin⟩
    · intro i
      by_cases hi : i = s.next_id
      · subst hi
        obtain ⟨_, _, _, _, f5, _, f7, _⟩ := hfresh s.next_id (Nat.le_refl _)
        rw [List.count_append, count_singleton_self,
          List.count_eq_zero.mpr f5, f7]
      · rw [List.count_append, count_singleton_ne i s.next_id (Ne.symm hi)]
        simpa using hsc i
    · intro i hsome
      by_cases hi : i = s.next_id
      · subst hi
        right
        exact List.mem_append.mpr (Or.inr (List.mem_singleton.mpr rfl))
      · simp only [if_neg hi] at hsome
        rcases hss i hsome with h | h
        · left; exact h
        · right; exact List.mem_append.mpr (Or.inl h)
    · exact hprec
  | some pt =>
    simp only
    constructor
    · intro i hi
      have hlt : s.next_id < i := hi
      obtain ⟨f1, f2, f3, f4, f5, f6, f7, f8⟩ := hfresh i (by omega)
      have hne : i ≠ s.next_id := by omega
      refine ⟨?_, ?_, f3, f4, ?_, f6, f7, f8⟩
      · simp only [if_neg hne]; exact f1
      · simp only [if_neg hne]; exact f2
      · intro hmem
        rcases List.mem_append.mp hmem with h | h
        · exact f5 h
        · simp only [List.mem_singleton] at h; exact hne h
    · intro i t ht
      by_cases hi : i = s.next_id
      · subst hi
        right
        simp
      · simp only [if_neg hi] at ht
        rcases hinv1 i t ht with h | h
        · left; exact h
        · right
          simp only [if_neg hi]
          exact h
    · intro i time hm
      by_cases hi : i = s.next_id
      · subst hi
        obtain ⟨_, _, f3, _⟩ := hfresh s.next_id (Nat.le_refl _)
        rw [f3] at hm; cases hm
      · obtain ⟨t, ht, hfin⟩ := hmf i time hm
        exact ⟨t, by simp only [if_neg hi]; exact ht, hfin⟩
    · intro i
      by_cases hi : i = s.next_id
      · subst hi
        obtain ⟨_, _, _, _, f5, _, f7, _⟩ := hfresh s.next_id (Nat.le_refl _)
        rw [List.count_append, count_singleton_self,
          List.count_eq_zero.mpr f5, f7]
      · rw [List.count_append, count_singleton_ne i s.next_id (Ne.symm hi)]
        simpa using hsc i
    · intro i hsome
      by_cases hi : i = s.next_id
      · subst hi
        right
        exact List.mem_append.mpr (Or.inr (List.mem_singleton.mpr rfl))
      · simp only [if_neg hi] at hsome
        rcases hss i hsome with h | h
        · left; exact h
        · right; exact List.mem_append.mpr (Or.inl h)
    · exact hprec


/-- `TaskInternal::mark_done` always produces a finished status. -/
theorem mark_done_isFinished (t : TaskInternal) (err : Option String)
    (now : Nat) : (t.mark_done err now).status.isFinished = true := by
  cases err <;> rfl

/-- `mark_done` preserves the reachability invariants. -/
theorem GInv_markDone (s : State) (id : Nat) (err : Option String)
    (now fuel : Nat) (s' : State)
    (h : mark_done s id err now fuel = some s') (hg : GInv s) : GInv s' := by
  obtain ⟨hfresh, hinv1, hmf, hsc, hss, hprec⟩ := hg
  unfold mark_done at h
  cases ht : s.tasks id with
  | none =>
    rw [ht] at h
    simp only [Option.some.injEq] at h
    exact h ▸ ⟨hfresh, hinv1, hmf, hsc, hss, hprec⟩
  | some task =>
    rw [ht] at h
    simp only at h
    set s1 : State :=
      { s with tasks := fun i =>
          if i = id then (some (task.mark_done err now)) else s.tasks i }
      with hs1
    cases hgc : markForGc s1 now fuel id with
    | none => rw [hgc] at h; cases h
    | some s2 =>
      rw [hgc] at h
      simp only [Option.some.injEq] at h
      obtain ⟨e1, e2, e3, e4, e5, e6, e7, e8, e9, e10, e11, e12⟩ :=
        markForGc_eqButMarked _ _ now id _ hgc
      have hmarks := markForGc_marked _ _ now id _ hgc
      subst h
      have hidlt : id < s.next_id := by
        by_contra hc
        push_neg at hc
        have := (hfresh id hc).1
        rw [this] at ht; cases ht
      have hTasks : ∀ i, ({ s2 with report_end := s2.report_end ++ [id] }
          : State).tasks i = s1.tasks i := fun i => congrFun e1 i
      have hT1 : ∀ i, s1.tasks i
          = if i = id then some (task.mark_done err now) else s.tasks i :=
        fun i => rfl
      have hRoots : ({ s2 with report_end := s2.report_end ++ [id] }
          : State).root_tasks = s.root_tasks := e4
      have hRS : ({ s2 with report_end := s2.report_end ++ [id] }
          : State).report_start = s.report_start := e5
      have hRE : ({ s2 with report_end := s2.report_end ++ [id] }
          : State).report_end = s.report_end ++ [id] := by
        show s2.report_end ++ [id] = s.report_end ++ [id]
        rw [(e6 : s2.report_end = s.report_end)]
      have hDel : ({ s2 with report_end := s2.report_end ++ [id] }
          : State).delivered = s.delivered := e12
      have hNext : ({ s2 with report_end := s2.report_end ++ [id] }
          : State).next_id = s.next_id := e11
      have hC2P : ({ s2 with report_end := s2.report_end ++ [id] }
          : State).child_to_parent = s.child_to_parent := e3
      have hMarked : ∀ i, ({ s2 with report_end := s2.report_end ++ [id] }
          : State).marked i = s2.marked i := fun i => rfl
      constructor
      · intro i hi
        rw [hNext] at hi
        obtain ⟨f1, f2, f3, f4, f5, f6, f7, f8⟩ := hfresh i hi
        have hne : i ≠ id := by omega
        refine ⟨?_, ?_, ?_, ?_, ?_, ?_, ?_, ?_⟩
        · rw [hTasks i, hT1 i, if_neg hne]; exact f1
        · rw [hC2P]; exact f2
        · rw [hMarked i]
          rcases hmarks i with hc | hc
          · rw [hc, (rfl : s1.marked i = s.marked i)]; exact f3
          · obtain ⟨_, _, t, htt, _⟩ := hc
            rw [hT1 i, if_neg hne] at htt
            rw [f1] at htt; cases htt
        · rw [hRoots]; exact f4
        · rw [hRS]; exact f5
        · rw [hRE]
          intro hmem
          rcases List.mem_append.mp hmem with hmm | hmm
          · exact f6 hmm
          · simp only [List.mem_singleton] at hmm; omega
        · rw [hDel]; exact f7
        · rw [hDel]; exact f8
      · intro i t hti
        rw [hTasks i, hT1 i] at hti
        rw [hRoots, hC2P]
        by_cases hi : i = id
        · rw [hi]
          exact hinv1 id task ht
        · rw [if_neg hi] at hti
          exact hinv1 i t hti
      · intro i time hm
        rw [hMarked i] at hm
        rcases hmarks i with hc | hc
        · rw [hc] at hm
          have hsm : s.marked i = some time := hm
          obtain ⟨t, htt, hfin⟩ := hmf i time hsm
          by_cases hi : i = id
          · refine ⟨task.mark_done err now, ?_, mark_done_isFinished _ _ _⟩
            rw [hTasks i, hT1 i, if_pos hi]
          · refine ⟨t, ?_, hfin⟩
            rw [hTasks i, hT1 i, if_neg hi]; exact htt
        · obtain ⟨_, _, t, htt, hfin⟩ := hc
          refine ⟨t, ?_, hfin⟩
          rw [hTasks i]; exact htt
      · intro i
        rw [hRS, hDel]
        exact hsc i
      · intro i hsome
        rw [hTasks i, hT1 i] at hsome
        rw [hDel, hRS]
        by_cases hi : i = id
        · rw [hi]
          exact hss id (by rw [ht]; rfl)
        · rw [if_neg hi] at hsome
          exact hss i hsome
      · intro i l1 l2 hsplit
        rw [hDel] at hsplit
        exact hprec i l1 l2 hsplit


/-- The queue-snapshot function keeps ids unchanged. -/
theorem snapshot_id (s : State) :
    ∀ a b, ((s.tasks a).map (fun _ => a) : Option Nat) = some b → b = a := by
  intro a b hab
  cases hta : s.tasks a with
  | none => rw [hta] at hab; cases hab
  | some t => rw [hta] at hab; exact (Option.some.injEq _ _ ▸ hab).symm

theorem snapshot_mem_of (s : State) (q : List Nat) (i : Nat)
    (h : i ∈ q.filterMap (fun id => (s.tasks id).map (fun _ => id))) :
    i ∈ q ∧ (s.tasks i).isSome = true := by
  rcases List.mem_filterMap.mp h with ⟨a, ha, hfa⟩
  have hai := snapshot_id s a i hfa
  subst hai
  refine ⟨ha, ?_⟩
  cases hta : s.tasks i with
  | none => rw [hta] at hfa; cases hfa
  | some t => rfl

theorem snapshot_mem_to (s : State) (q : List Nat) (i : Nat)
    (hq : i ∈ q) (hsome : (s.tasks i).isSome = true) :
    i ∈ q.filterMap (fun id => (s.tasks id).map (fun _ => id)) := by
  refine List.mem_filterMap.mpr ⟨i, hq, ?_⟩
  cases hta : s.tasks i with
  | none => rw [hta] at hsome; cases hsome
  | some t => rfl

/-- An event-pump iteration preserves the reachability invariants. -/
theorem GInv_pump (s : State) (hg : GInv s) : GInv (report_all s) := by
  obtain ⟨hfresh, hinv1, hmf, hsc, hss, hprec⟩ := hg
  unfold report_all
  constructor
  · intro i hi
    obtain ⟨f1, f2, f3, f4, f5, f6, f7, f8⟩ := hfresh i hi
    refine ⟨f1, f2, f3, f4, List.not_mem_nil i, List.not_mem_nil i, ?_, ?_⟩
    · show (s.delivered
        ++ (s.report_start.filterMap
            (fun id => (s.tasks id).map (fun _ => id))).map Ev.started
        ++ (s.report_end.filterMap
            (fun id => (s.tasks id).map (fun _ => id))).map Ev.ended).count
          (Ev.started i) = 0
      rw [List.count_append, List.count_append, f7,
        count_map_started_started, count_map_ended_started]
      have hle := count_filterMap_le s.report_start _ (snapshot_id s) i
      have h0 : s.report_start.count i = 0 := List.count_eq_zero.mpr f5
      omega
    · show (s.delivered
        ++ (s.report_start.filterMap
            (fun id => (s.tasks id).map (fun _ => id))).map Ev.started
        ++ (s.report_end.filterMap
            (fun id => (s.tasks id).map (fun _ => id))).map Ev.ended).count
          (Ev.ended i) = 0
      rw [List.count_append, List.count_append, f8,
        count_map_started_ended, count_map_ended_ended]
      have hle := count_filterMap_le s.report_end _ (snapshot_id s) i
      have h0 : s.report_end.count i = 0 := List.count_eq_zero.mpr f6
      omega
  · exact fun i t ht => hinv1 i t ht
  · exact fun i time hm => hmf i time hm
  · intro i
    show List.count i [] + _ ≤ 1
    rw [List.count_nil]
    show 0 + (s.delivered
        ++ (s.report_start.filterMap
            (fun id => (s.tasks id).map (fun _ => id))).map Ev.started
        ++ (s.report_end.filterMap
            (fun id => (s.tasks id).map (fun _ => id))).map Ev.ended).count
          (Ev.started i) ≤ 1
    rw [List.count_append, List.count_append,
      count_map_started_started, count_map_ended_started]
    have hle := count_filterMap_le s.report_start _ (snapshot_id s) i
    have := hsc i
    omega
  · intro i hsome
    left
    rcases hss i hsome with hdel | hq
    · exact List.mem_append.mpr (Or.inl (List.mem_append.mpr (Or.inl hdel)))
    · have hst := snapshot_mem_to s s.report_start i hq hsome
      exact List.mem_append.mpr (Or.inl (List.mem_append.mpr
        (Or.inr (List.mem_map.mpr ⟨i, hst, rfl⟩))))
  · intro i l1 l2 hsplit
    have hsplit' : (s.delivered
        ++ (s.report_start.filterMap
            (fun id => (s.tasks id).map (fun _ => id))).map Ev.started)
        ++ (s.report_end.filterMap
            (fun id => (s.tasks id).map (fun _ => id))).map Ev.ended
        = l1 ++ Ev.ended i :: l2 := hsplit
    rcases append_occ_split _ _ l1 l2 _ hsplit' with ⟨l2a, ha⟩ |
      ⟨l1b, l2b, hb, hl⟩
    · rcases append_occ_split _ _ l1 l2a _ ha with ⟨l2c, hc⟩ |
        ⟨l1d, l2d, hd, hld⟩
      · exact hprec i l1 l2c hc
      · exfalso
        have hmem : Ev.ended i ∈ (s.report_start.filterMap
            (fun id => (s.tasks id).map (fun _ => id))).map Ev.started := by
          rw [hd]
          exact List.mem_append.mpr (Or.inr (List.mem_cons_self _ _))
        rcases List.mem_map.mp hmem with ⟨j, _, hj⟩
        cases hj
    · have hmem : Ev.ended i ∈ (s.report_end.filterMap
          (fun id => (s.tasks id).map (fun _ => id))).map Ev.ended := by
        rw [hb]
        exact List.mem_append.mpr (Or.inr (List.mem_cons_self _ _))
      rcases List.mem_map.mp hmem with ⟨j, hjmem, hj⟩
      have hji : j = i := by injection hj
      subst hji
      obtain ⟨hqe, hsome⟩ := snapshot_mem_of s s.report_end j hjmem
      rw [hl]
      rcases hss j hsome with hdel | hq
      · exact List.mem_append.mpr (Or.inl (List.mem_append.mpr (Or.inl hdel)))
      · have hst := snapshot_mem_to s s.report_start j hq hsome
        exact List.mem_append.mpr (Or.inl (List.mem_append.mpr
          (Or.inr (List.mem_map.mpr ⟨j, hst, rfl⟩))))

/-- A GC sweep preserves the reachability invariants. -/
theorem GInv_sweep (s : State) (now : Nat) (hg : GInv s) :
    GInv (garbage_collect s now) := by
  obtain ⟨hfresh, hinv1, hmf, hsc, hss, hprec⟩ := hg
  unfold garbage_collect
  constructor
  · intro i hi
    obtain ⟨f1, f2, f3, f4, f5, f6, f7, f8⟩ := hfresh i hi
    refine ⟨?_, ?_, ?_, ?_, f5, f6, f7, f8⟩
    · show (if expired s now i = true then Option.none else s.tasks i)
        = Option.none
      rw [f1, ite_self]
    · show (if expired s now i = true then Option.none
        else s.child_to_parent i) = Option.none
      rw [f2, ite_self]
    · show (if expired s now i = true then Option.none else s.marked i)
        = Option.none
      rw [f3, ite_self]
    · intro hmem
      exact f4 (List.mem_filter.mp hmem).1
  · intro i t ht
    have ht' : (if expired s now i = true then Option.none else s.tasks i)
        = some t := ht
    by_cases he : expired s now i = true
    · rw [if_pos he] at ht'; cases ht'
    · rw [if_neg he] at ht'
      have he' : expired s now i = false := Bool.not_eq_true _ ▸ he
      rcases hinv1 i t ht' with hr | hc
      · left
        exact List.mem_filter.mpr ⟨hr, by rw [he']; rfl⟩
      · right
        show (if expired s now i = true then Option.none
          else s.child_to_parent i).isSome = true
        rw [if_neg he]
        exact hc
  · intro i time hm
    have hm' : (if expired s now i = true then Option.none else s.marked i)
        = some time := hm
    by_cases he : expired s now i = true
    · rw [if_pos he] at hm'; cases hm'
    · rw [if_neg he] at hm'
      obtain ⟨t, htt, hfin⟩ := hmf i time hm'
      refine ⟨t, ?_, hfin⟩
      show (if expired s now i = true then Option.none else s.tasks i)
        = some t
      rw [if_neg he]
      exact htt
  · exact fun i => hsc i
  · intro i hsome
    have hsome' : (if expired s now i = true then Option.none
        else s.tasks i).isSome = true := hsome
    by_cases he : expired s now i = true
    · rw [if_pos he] at hsome'; cases hsome'
    · rw [if_neg he] at hsome'
      exact hss i hsome'
  · exact hprec

/-- `GInv` holds initially and is preserved by every operation. -/
theorem GInv_init (ms : Nat) : GInv (initState ms) := by
  constructor
  · intro i _
    refine ⟨rfl, rfl, rfl, ?_, ?_, ?_, rfl, rfl⟩ <;> exact List.not_mem_nil i
  · intro i t ht; cases ht
  · intro i time hm; cases hm
  · intro i; exact Nat.zero_le 1
  · intro i hsome; cases hsome
  · intro i l1 l2 hsplit
    have hmem : Ev.ended i ∈ l1 ++ Ev.ended i :: l2 :=
      List.mem_append.mpr (Or.inr (List.mem_cons_self (Ev.ended i) l2))
    rw [← hsplit] at hmem
    cases hmem

theorem GInv_step (s : State) (op : Op) (s' : State)
    (h : applyOp s op = some s') (hg : GInv s) : GInv s' := by
  cases op with
  | create name parent now =>
    simp only [applyOp, Option.some.injEq] at h
    exact h ▸ GInv_create s name parent now hg
  | markDone id err now fuel =>
    exact GInv_markDone s id err now fuel s' h hg
  | pump =>
    simp only [applyOp, Option.some.injEq] at h
    exact h ▸ GInv_pump s hg
  | sweep now =>
    simp only [applyOp, Option.some.injEq] at h
    exact h ▸ GInv_sweep s now hg

theorem GInv_run : ∀ (ops : List Op) (s s' : State),
    run s ops = some s' → GInv s → GInv s' := by
  intro ops
  induction ops with
  | nil =>
    intro s s' h hg
    simp only [run, Option.some.injEq] at h
    exact h ▸ hg
  | cons op rest ih =>
    intro s s' h hg
    simp only [run] at h
    cases hap : applyOp s op with
    | none => rw [hap] at h; cases h
    | some s1 =>
      rw [hap] at h
      exact ih s1 s' h (GInv_step s op s1 hap hg)


/-! ### Per-operation effect lemmas for the queues -/

theorem create_shape (s : State) (name : String) (parent : Option Nat)
    (now : Nat) :
    (create_task_internal s name parent now).1.report_end = s.report_end ∧
    (create_task_internal s name parent now).1.delivered = s.delivered ∧
    (create_task_internal s name parent now).1.report_start
      = s.report_start ++ [s.next_id] ∧
    (∀ i, i ≠ s.next_id →
      (create_task_internal s name parent now).1.tasks i = s.tasks i) ∧
    ((create_task_internal s name parent now).1.tasks s.next_id).isSome
      = true := by
  unfold create_task_internal
  cases parent.bind s.tasks with
  | none =>
    refine ⟨rfl, rfl, rfl, fun i hi => ?_, ?_⟩
    · show (if i = s.next_id then _ else s.tasks i) = s.tasks i
      rw [if_neg hi]
    · show (if s.next_id = s.next_id then _ else s.tasks s.next_id).isSome
        = true
      rw [if_pos rfl]
      rfl
  | some pt =>
    refine ⟨rfl, rfl, rfl, fun i hi => ?_, ?_⟩
    · show (if i = s.next_id then _ else s.tasks i) = s.tasks i
      rw [if_neg hi]
    · show (if s.next_id = s.next_id then _ else s.tasks s.next_id).isSome
        = true
      rw [if_pos rfl]
      rfl

theorem mark_done_shape (s : State) (id : Nat) (err : Option String)
    (now fuel : Nat) (s' : State)
    (h : mark_done s id err now fuel = some s') :
    (s.tasks id = Option.none ∧ s' = s) ∨
    ((s.tasks id).isSome = true ∧
      s'.report_end = s.report_end ++ [id] ∧
      s'.report_start = s.report_start ∧
      s'.delivered = s.delivered ∧
      (∀ i, i ≠ id → s'.tasks i = s.tasks i) ∧
      (s'.tasks id).isSome = true) := by
  unfold mark_done at h
  cases ht : s.tasks id with
  | none =>
    rw [ht] at h
    simp only [Option.some.injEq] at h
    exact Or.inl ⟨rfl, h.symm⟩
  | some task =>
    rw [ht] at h
    simp only at h
    cases hgc : markForGc
        { s with tasks := fun i =>
            if i = id then (some (task.mark_done err now)) else s.tasks i }
        now fuel id with
    | none => rw [hgc] at h; cases h
    | some s2 =>
      rw [hgc] at h
      simp only [Option.some.injEq] at h
      obtain ⟨e1, _, _, _, e5, e6, _, _, _, _, _, e12⟩ :=
        markForGc_eqButMarked _ _ now id _ hgc
      subst h
      refine Or.inr ⟨rfl, ?_, e5, e12, ?_, ?_⟩
      · show s2.report_end ++ [id] = s.report_end ++ [id]
        rw [(e6 : s2.report_end = s.report_end)]
      · intro i hi
        have : s2.tasks i = _ := congrFun e1 i
        rw [this]
        show (if i = id then _ else s.tasks i) = s.tasks i
        rw [if_neg hi]
      · have : s2.tasks id = _ := congrFun e1 id
        show (s2.tasks id).isSome = true
        rw [this]
        show (if id = id then (some (task.mark_done err now))
          else s.tasks id).isSome = true
        rw [if_pos rfl]
        rfl

/-- Bound on `end` deliveries: queued plus delivered `end` events for an
id never exceed their initial amount plus the number of `mark_done`
calls for that id. -/
theorem end_budget : ∀ (ops : List Op) (s s' : State) (i : Nat),
    run s ops = some s' →
    s'.report_end.count i + s'.delivered.count (.ended i) ≤
    s.report_end.count i + s.delivered.count (.ended i) + countMD ops i := by
  intro ops
  induction ops with
  | nil =>
    intro s s' i h
    simp only [run, Option.some.injEq] at h
    subst h
    simp [countMD]
  | cons op rest ih =>
    intro s s' i h
    simp only [run] at h
    cases hap : applyOp s op with
    | none => rw [hap] at h; cases h
    | some s1 =>
      rw [hap] at h
      have hrest := ih s1 s' i h
      cases op with
      | create name parent now =>
        have hcnt : countMD (Op.create name parent now :: rest) i
            = countMD rest i := by
          simp [countMD, List.countP_cons]
        simp only [applyOp, Option.some.injEq] at hap
        obtain ⟨he, hd, _, _, _⟩ := create_shape s name parent now
        rw [← hap, he, hd] at hrest
        rw [hcnt]
        omega
      | markDone j err now fuel =>
        have hcnt : countMD (Op.markDone j err now fuel :: rest) i
            = countMD rest i + (if (j == i) = true then 1 else 0) := by
          simp only [countMD, List.countP_cons]
        simp only [applyOp] at hap
        rcases mark_done_shape s j err now fuel s1 hap with ⟨_, hs⟩ |
          ⟨_, he, _, hd, _, _⟩
        · subst hs
          rw [hcnt]
          omega
        · rw [he, hd, List.count_append] at hrest
          rw [hcnt]
          by_cases hji : j = i
          · have hb : (j == i) = true := beq_iff_eq.mpr hji
            rw [hji, count_singleton_self] at hrest
            rw [hb]
            simp only [if_pos]
            omega
          · have hb : (j == i) = false := beq_eq_false_iff_ne.mpr hji
            rw [count_singleton_ne i j hji] at hrest
            rw [hb]
            simp only [Bool.false_eq_true, if_false]
            omega
      | pump =>
        have hcnt : countMD (Op.pump :: rest) i = countMD rest i := by
          simp [countMD, List.countP_cons]
        simp only [applyOp, Option.some.injEq] at hap
        subst hap
        have hc : (report_all s).report_end.count i
            + (report_all s).delivered.count (.ended i) ≤
            s.report_end.count i + s.delivered.count (.ended i) := by
          show List.count i [] + (s.delivered
            ++ (s.report_start.filterMap
                (fun id => (s.tasks id).map (fun _ => id))).map Ev.started
            ++ (s.report_end.filterMap
                (fun id => (s.tasks id).map (fun _ => id))).map Ev.ended).count
              (Ev.ended i) ≤ _
          rw [List.count_nil, List.count_append, List.count_append,
            count_map_started_ended, count_map_ended_ended]
          have hle := count_filterMap_le s.report_end _ (snapshot_id s) i
          omega
        rw [hcnt]
        omega
      | sweep now =>
        have hcnt : countMD (Op.sweep now :: rest) i = countMD rest i := by
          simp [countMD, List.countP_cons]
        simp only [applyOp, Option.some.injEq] at hap
        subst hap
        rw [hcnt]
        have h1 : (garbage_collect s now).report_end = s.report_end := rfl
        have h2 : (garbage_collect s now).delivered = s.delivered := rfl
        rw [h1, h2] at hrest
        omega

/-- Queue entries point to live tasks as long as no sweep has run. -/
def QInv (s : State) : Prop :=
  (∀ i ∈ s.report_start, (s.tasks i).isSome = true) ∧
  (∀ i ∈ s.report_end, (s.tasks i).isSome = true)

theorem QInv_run : ∀ (ops : List Op) (s s' : State),
    run s ops = some s' → NoSweep ops = true → QInv s → QInv s' := by
  intro ops
  induction ops with
  | nil =>
    intro s s' h _ hq
    simp only [run, Option.some.injEq] at h
    exact h ▸ hq
  | cons op rest ih =>
    intro s s' h hns hq
    simp only [run] at h
    cases hap : applyOp s op with
    | none => rw [hap] at h; cases h
    | some s1 =>
      rw [hap] at h
      have hns' : NoSweep rest = true := by
        simp only [NoSweep, List.all_cons, Bool.and_eq_true] at hns
        exact hns.2
      refine ih s1 s' h hns' ?_
      cases op with
      | create name parent now =>
        simp only [applyOp, Option.some.injEq] at hap
        obtain ⟨he, _, hrs, hpre, hnew⟩ := create_shape s name parent now
        subst hap
        constructor
        · intro i hi
          rw [hrs] at hi
          rcases List.mem_append.mp hi with hold | hnewm
          · by_cases hin : i = s.next_id
            · rw [hin]; exact hnew
            · rw [hpre i hin]; exact hq.1 i hold
          · simp only [List.mem_singleton] at hnewm
            rw [hnewm]; exact hnew
        · intro i hi
          rw [he] at hi
          by_cases hin : i = s.next_id
          · rw [hin]; exact hnew
          · rw [hpre i hin]; exact hq.2 i hi
      | markDone j err now fuel =>
        simp only [applyOp] at hap
        rcases mark_done_shape s j err now fuel s1 hap with ⟨_, hs⟩ |
          ⟨_, he, hrs, _, hpre, hj⟩
        · exact hs ▸ hq
        · constructor
          · intro i hi
            rw [hrs] at hi
            by_cases hij : i = j
            · rw [hij]; exact hj
            · rw [hpre i hij]; exact hq.1 i hi
          · intro i hi
            rw [he] at hi
            rcases List.mem_append.mp hi with hold | hnewm
            · by_cases hij : i = j
              · rw [hij]; exact hj
              · rw [hpre i hij]; exact hq.2 i hold
            · simp only [List.mem_singleton] at hnewm
              rw [hnewm]; exact hj
      | pump =>
        simp only [applyOp, Option.some.injEq] at hap
        subst hap
        exact ⟨fun i hi => absurd hi (List.not_mem_nil i),
          fun i hi => absurd hi (List.not_mem_nil i)⟩
      | sweep now =>
        exfalso
        simp [NoSweep, List.all_cons] at hns


/-! ## Claim C2: reporter deliveries -/

/-- C2 (amended): over any interleaving of task creation, `mark_done`,
pump iterations and GC sweeps in which `mark_done` is called at most
once for an id, every reporter receives at most one `start` and at most
one `end` for that id, and any delivered `end` is preceded by the
delivered `start`.  Exactly-once delivery does not hold: a sweep that
removes the task before the pump drains the queues silently drops its
events (see the counterexample). -/
theorem C2_delivery (ms : Nat) (ops : List Op) (s : State) (id : Nat)
    (hrun : run (initState ms) ops = some s)
    (honce : countMD ops id ≤ 1) :
    s.delivered.count (.started id) ≤ 1 ∧
    s.delivered.count (.ended id) ≤ 1 ∧
    (∀ l1 l2, s.delivered = l1 ++ .ended id :: l2 → .started id ∈ l1) := by
  have hg := GInv_run ops _ _ hrun (GInv_init ms)
  refine ⟨?_, ?_, hg.prec id⟩
  · have := hg.startCount id
    omega
  · have hbudget := end_budget ops (initState ms) s id hrun
    have h1 : (initState ms).report_end.count id = 0 := rfl
    have h2 : (initState ms).delivered.count (.ended id) = 0 := rfl
    rw [h1, h2] at hbudget
    omega

def c2ops : List Op :=
  [.create "a" Option.none 0, .markDone 0 Option.none 0 9, .sweep 1, .pump]

/-- C2: refuting "exactly one start and exactly one end, including when
the grace period is 0": task 0 is created and successfully marked done,
but a sweep with grace 0 removes it before the pump runs, and the pump
then delivers nothing at all — no reporter ever observes either event. -/
theorem C2_counterexample :
    (run (initState 0) (List.take 2 c2ops)).map
      (fun s => (s.tasks 0).map (fun t => t.status.isFinished))
      = some (some true) ∧
    (run (initState 0) c2ops).map (fun s => s.delivered) = some [] :=
  ⟨rfl, rfl⟩

def c2wops : List Op :=
  [.create "a" Option.none 0, .markDone 0 Option.none 1 9, .pump]

def c2ws : State := (run (initState 0) c2wops).getD (initState 0)

/-- Witness for `C2_delivery` on a concrete run that does deliver both
events. -/
theorem C2_witness :
    (run (initState 0) c2wops = some c2ws) ∧ countMD c2wops 0 ≤ 1 ∧
    c2ws.delivered = [Ev.started 0, Ev.ended 0] ∧
    c2ws.delivered.count (Ev.started 0) ≤ 1 ∧
    c2ws.delivered.count (Ev.ended 0) ≤ 1 :=
  ⟨rfl, by decide, rfl,
    (C2_delivery 0 c2wops c2ws 0 rfl (by decide)).1,
    (C2_delivery 0 c2wops c2ws 0 rfl (by decide)).2.1⟩

/-! ## Claim C3: pending queues and the task map -/

/-- C3 (amended): every id held in `report_start` / `report_end` was
allocated at some point, and, as long as no GC sweep has run, it is
still present in the task map; a sweep may leave dangling queued ids
(see the counterexample), which the pump then skips. -/
theorem C3_queues (ms : Nat) (ops : List Op) (s : State)
    (hrun : run (initState ms) ops = some s) :
    (∀ i ∈ s.report_start, i < s.next_id) ∧
    (∀ i ∈ s.report_end, i < s.next_id) ∧
    (NoSweep ops = true →
      (∀ i ∈ s.report_start, (s.tasks i).isSome = true) ∧
      (∀ i ∈ s.report_end, (s.tasks i).isSome = true)) := by
  have hg := GInv_run ops _ _ hrun (GInv_init ms)
  refine ⟨?_, ?_, ?_⟩
  · intro i hi
    by_contra hc
    push_neg at hc
    exact (hg.fresh i hc).2.2.2.2.1 hi
  · intro i hi
    by_contra hc
    push_neg at hc
    exact (hg.fresh i hc).2.2.2.2.2.1 hi
  · intro hns
    refine QInv_run ops _ _ hrun hns ⟨?_, ?_⟩ <;>
      exact fun i hi => absurd hi (List.not_mem_nil i)

def c3ops : List Op :=
  [.create "a" Option.none 0, .markDone 0 Option.none 0 9, .sweep 1]

/-- C3: refuting the invariant as stated: after create, mark_done and a
sweep with grace 0, both queues still hold id 0 while the task map no
longer contains it. -/
theorem C3_counterexample :
    (run (initState 0) c3ops).map
      (fun s => (s.report_start, s.report_end, (s.tasks 0).isNone))
      = some ([0], [0], true) := rfl

def c3wops : List Op :=
  [.create "a" Option.none 0, .markDone 0 Option.none 1 9]

def c3ws : State := (run (initState 0) c3wops).getD (initState 0)

/-- Witness for `C3_queues` on a sweep-free run. -/
theorem C3_witness :
    (run (initState 0) c3wops = some c3ws) ∧ NoSweep c3wops = true ∧
    c3ws.report_end = [0] ∧
    (∀ i ∈ c3ws.report_end, i < c3ws.next_id) ∧
    (∀ i ∈ c3ws.report_end, (c3ws.tasks i).isSome = true) :=
  ⟨rfl, by decide, rfl,
    (C3_queues 0 c3wops c3ws rfl).2.1,
    ((C3_queues 0 c3wops c3ws rfl).2.2 (by decide)).2⟩

/-! ## Claim C4: the GC sweep and the structural invariants -/

/-- C4 (amended): after a sweep from any reachable state, spec invariant
3-1 still holds (every remaining task is a root or has a
`child_to_parent` entry) and every task the sweep removed was finished.
Invariant 3-2 can be violated: a removed parent leaves a dangling
`child_to_parent` entry on a surviving child while the parent's
`parent_to_children` entry is gone (see the counterexample). -/
theorem C4_sweep_invariants (ms : Nat) (ops : List Op) (s : State)
    (now : Nat) (hrun : run (initState ms) ops = some s) :
    (∀ i t, (garbage_collect s now).tasks i = some t →
      i ∈ (garbage_collect s now).root_tasks ∨
      ((garbage_collect s now).child_to_parent i).isSome = true) ∧
    (∀ i, (s.tasks i).isSome = true →
      (garbage_collect s now).tasks i = Option.none →
      ∃ t, s.tasks i = some t ∧ t.status.isFinished = true) := by
  have hg := GInv_run ops _ _ hrun (GInv_init ms)
  constructor
  · exact (GInv_sweep s now hg).inv1
  · intro i hsome hnone
    have he : expired s now i = true := by
      by_contra hc
      have heq : (garbage_collect s now).tasks i = s.tasks i := by
        show (if expired s now i = true then Option.none else s.tasks i) = _
        rw [if_neg hc]
      rw [heq] at hnone
      rw [hnone] at hsome
      cases hsome
    unfold expired at he
    cases hm : s.marked i with
    | none => rw [hm] at he; cases he
    | some time => exact hg.markedFin i time hm

def c4ops : List Op :=
  [.create "a" Option.none 0, .markDone 0 Option.none 0 9,
    .create "b" (some 0) 0, .sweep 1]

/-- C4: refuting invariant 3-2 after a sweep: task 1 was created under
the already-finished task 0; the sweep removes 0 but keeps the running
task 1, whose `child_to_parent` entry still points at the removed 0
while `parent_to_children 0` is gone, and the removed task's subtree
contained the running task 1. -/
theorem C4_counterexample :
    (run (initState 0) c4ops).map (fun s =>
      (s.child_to_parent 1, (s.parent_to_children 0).isNone,
        (s.tasks 1).map (fun t => t.status), (s.tasks 0).isNone,
        s.root_tasks))
      = some (some 0, true, some .running, true, []) := rfl

def c4wops : List Op :=
  [.create "a" Option.none 0, .markDone 0 Option.none 0 9]

def c4ws : State := (run (initState 0) c4wops).getD (initState 0)

/-- Witness for `C4_sweep_invariants`: the swept-away task 0 was indeed
finished. -/
theorem C4_witness :
    (run (initState 0) c4wops = some c4ws) ∧
    (c4ws.tasks 0).isSome = true ∧
    (garbage_collect c4ws 1).tasks 0 = Option.none ∧
    (c4ws.tasks 0).map (fun t => t.status.isFinished) = some true := by
  refine ⟨rfl, rfl, rfl, ?_⟩
  obtain ⟨t, ht, hf⟩ := (C4_sweep_invariants 0 c4wops c4ws 1 rfl).2 0 rfl rfl
  rw [ht]
  simpa using hf


/-! ## Claim C8: the tag parser -/

/-- Splitting a hash-free string yields the single fragment itself. -/
theorem splitOnHash_no_hash :
    ∀ (l : List Char), '#' ∉ l → splitOnHash l = [l] := by
  intro l
  induction l with
  | nil => intro _; rfl
  | cons c cs ih =>
    intro hn
    have hc : ¬(c = '#') := fun hcc =>
      hn (hcc ▸ List.mem_cons_self c cs)
    have hcs : '#' ∉ cs := fun hmm => hn (List.mem_cons_of_mem c hmm)
    simp only [splitOnHash, if_neg hc, ih hcs]

/-- Splitting at the first hash after a hash-free prefix. -/
theorem splitOnHash_append_hash :
    ∀ (l rest : List Char), '#' ∉ l →
    splitOnHash (l ++ '#' :: rest) = l :: splitOnHash rest := by
  intro l
  induction l with
  | nil =>
    intro rest _
    show splitOnHash ('#' :: rest) = [] :: splitOnHash rest
    simp [splitOnHash]
  | cons c cs ih =>
    intro rest hn
    have hc : ¬(c = '#') := fun hcc =>
      hn (hcc ▸ List.mem_cons_self c cs)
    have hcs : '#' ∉ cs := fun hmm => hn (List.mem_cons_of_mem c hmm)
    have hstep : splitOnHash ((c :: cs) ++ '#' :: rest)
        = match splitOnHash (cs ++ '#' :: rest) with
          | [] => [[c]]
          | f :: r => (c :: f) :: r := by
      simp only [List.cons_append, splitOnHash, if_neg hc]
      rfl
    rw [hstep, ih rest hcs]

/-- The fragment skeleton of a name built from a base and tag tokens. -/
def mkFrags (base : List Char) : List (List Char) → List (List Char)
  | [] => [base]
  | t :: ts => (base ++ [' ']) :: mkFrags t ts

theorem split_mk_name :
    ∀ (tags : List (List Char)) (base : List Char), '#' ∉ base →
    (∀ t ∈ tags, '#' ∉ t) →
    splitOnHash (base ++ (tags.map (fun u => ' ' :: '#' :: u)).flatten)
      = mkFrags base tags := by
  intro tags
  induction tags with
  | nil =>
    intro base hb _
    simp only [List.map_nil, List.flatten_nil, List.append_nil]
    exact splitOnHash_no_hash base hb
  | cons t ts ih =>
    intro base hb ht
    have hbs : '#' ∉ base ++ [' '] := by
      intro hmm
      rcases List.mem_append.mp hmm with hm1 | hm1
      · exact hb hm1
      · simp only [List.mem_singleton] at hm1; cases hm1
    have hassoc : base ++ (((t :: ts).map (fun u => ' ' :: '#' :: u)).flatten)
        = (base ++ [' ']) ++ '#' ::
          (t ++ ((ts.map (fun u => ' ' :: '#' :: u)).flatten)) := by
      simp only [List.map_cons, List.flatten_cons]
      simp [List.append_assoc]
    rw [hassoc, splitOnHash_append_hash _ _ hbs,
      ih t (ht t (List.mem_cons_self t ts))
        (fun u hu => ht u (List.mem_cons_of_mem t hu))]
    rfl

/-- Trailing spaces are trimmed away. -/
theorem trim_append_space (l : List Char) : trim (l ++ [' ']) = trim l := by
  unfold trim trimR
  have : (l ++ [' ']).reverse = ' ' :: l.reverse := by
    simp
  rw [this]
  simp only [List.dropWhile]
  rfl

theorem map_trim_mkFrags :
    ∀ (tags : List (List Char)) (base : List Char), trim base = base →
    (∀ t ∈ tags, trim t = t) →
    (mkFrags base tags).map trim = base :: tags := by
  intro tags
  induction tags with
  | nil =>
    intro base hb _
    simp only [mkFrags, List.map_cons, List.map_nil, hb]
  | cons t ts ih =>
    intro base hb ht
    simp only [mkFrags, List.map_cons]
    rw [trim_append_space, hb,
      ih t (ht t (List.mem_cons_self t ts))
        (fun u hu => ht u (List.mem_cons_of_mem t hu))]

theorem filter_nonempty_id :
    ∀ (l : List (List Char)), (∀ t ∈ l, t ≠ []) →
    l.filter (fun s => !s.isEmpty) = l := by
  intro l
  induction l with
  | nil => intro _; rfl
  | cons t ts ih =>
    intro h
    have ht : t ≠ [] := h t (List.mem_cons_self t ts)
    have hts := ih (fun u hu => h u (List.mem_cons_of_mem t hu))
    have hne : (!t.isEmpty) = true := by
      cases t with
      | nil => exact absurd rfl ht
      | cons a b => rfl
    simp only [List.filter, hne, hts]

/-- C8 (amended): the round trip holds for every non-empty, trim-stable,
hash-free base name and non-empty, trim-stable, hash-free tag tokens:
parsing `base ++ " #tag1" ++ … ++ " #tagN"` returns exactly `base`
together with the tag list.  (Without those side conditions the claim
fails: with fewer than two surviving fragments the parser returns the
raw input unchanged — see the counterexample.) -/
theorem C8_roundtrip (base : List Char) (tags : List (List Char))
    (hbase : '#' ∉ base) (hbt : trim base = base) (hbne : base ≠ [])
    (htags : ∀ t ∈ tags, t ≠ [] ∧ '#' ∉ t ∧ trim t = t) :
    extract_tags (base ++ (tags.map (fun u => ' ' :: '#' :: u)).flatten)
      = (base, tags) := by
  unfold extract_tags
  rw [split_mk_name tags base hbase (fun t htm => (htags t htm).2.1),
    map_trim_mkFrags tags base hbt (fun t htm => (htags t htm).2.2),
    filter_nonempty_id (base :: tags)
      (by
        intro t htm
        rcases List.mem_cons.mp htm with h1 | h1
        · rw [h1]; exact hbne
        · exact (htags t h1).1)]
  cases tags with
  | nil =>
    simp only [List.length_cons, List.length_nil, List.map_nil,
      List.flatten_nil, List.append_nil]
    rfl
  | cons t ts =>
    have hlen : ¬((base :: t :: ts).length < 2) := by
      simp only [List.length_cons]
      omega
    rw [if_neg hlen]
    rfl

/-- C8: refuting the unconditional description "the first fragment is
the clean name": `"#dont_print"` leaves a single fragment after the
split, so the parser returns the raw input (hash included) with an
empty tag set, exactly as the crate's own snapshot test records. -/
theorem C8_counterexample :
    extract_tags ('#' :: "dont_print".toList)
      = ('#' :: "dont_print".toList, []) ∧
    ('#' :: "dont_print".toList) ≠ "dont_print".toList := by
  refine ⟨rfl, ?_⟩
  decide

/-- Witness for `C8_roundtrip`: `"name #a #bc"` parses back to
`("name", ["a", "bc"])`. -/
theorem C8_witness :
    ("name".toList ++ ([['a'], ['b', 'c']].map
        (fun u => ' ' :: '#' :: u)).flatten) = "name #a #bc".toList ∧
    extract_tags "name #a #bc".toList = ("name".toList, [['a'], ['b', 'c']]) := by
  refine ⟨rfl, ?_⟩
  have h := C8_roundtrip "name".toList [['a'], ['b', 'c']]
    (by decide) (by decide) (by decide) (by decide)
  exact h

end LL
